import Mathlib

set_option maxRecDepth 4000

/-!
Verification of the sync-job engine of lucidlink-nas-sync.

The Python services are shallowly embedded: names are sequences of unicode
characters (`List Char`), UTF-8 byte lengths are computed per character,
the filesystem and the external transfer tool are oracles passed in as
functions, and the fallible truncation loop of `normalize_filename` is
modelled with explicit fuel returning `Option` (with `none` exactly on the
inputs where the Python loop does not terminate).
-/

namespace NasSync

/-- Character sequence standing for a Python `str`. -/
abbrev Str := List Char

/-- UTF-8 byte length of a character sequence, as Python `len(s.encode("utf-8"))`. -/
def utf8Len (s : Str) : Nat := (s.map Char.utf8Size).sum

/-- Backslash character. -/
def bslash : Char := Char.ofNat 92

/-- Double-quote character. -/
def dquote : Char := Char.ofNat 34

/-- Single-quote character. -/
def squote : Char := Char.ofNat 39

/-- NUL character. -/
def nulChar : Char := Char.ofNat 0

/-! ## filename_issues.py : normalization -/

/-- Embeds `FilenameIssuesManager.CHAR_REPLACEMENTS` applied to a single
character.  The sequential `str.replace` calls of the source are equivalent
to a per-character map because no replacement output is itself a key. -/
def replaceChar (c : Char) : Str :=
  if c = bslash then ['-']
  else if c = ':' then ['-']
  else if c = '*' then ['_']
  else if c = '?' then ['_']
  else if c = dquote then [squote]
  else if c = '<' then ['(']
  else if c = '>' then [')']
  else if c = '|' then ['-']
  else if c = nulChar then []
  else [c]

/-- Embeds `result.strip(' ')`: removes leading and trailing space characters. -/
def stripSpaces (s : Str) : Str :=
  ((s.dropWhile (fun c => c = ' ')).reverse.dropWhile (fun c => c = ' ')).reverse

/-- Embeds `result.rstrip('.')`: removes trailing dot characters. -/
def rstripDots (s : Str) : Str :=
  (s.reverse.dropWhile (fun c => c = '.')).reverse

/-- Index of the last occurrence of `c` in `s`, as Python `str.rfind` (as an
option instead of -1). -/
def rfindIdx (c : Char) : Str → Option Nat
  | [] => none
  | x :: xs =>
    match rfindIdx c xs with
    | some i => some (i + 1)
    | none => if x = c then some 0 else none

/-- Embeds `os.path.splitext` (posixpath variant): split at the last dot that
follows the last slash, unless every character between them is a dot. -/
def splitext (p : Str) : Str × Str :=
  let sepIdx : Int := match rfindIdx '/' p with | some i => (i : Int) | none => -1
  let dotIdx : Int := match rfindIdx '.' p with | some i => (i : Int) | none => -1
  if sepIdx < dotIdx then
    let d := dotIdx.toNat
    let start := (sepIdx + 1).toNat
    if (List.range (d - start)).any (fun k => p.getD (start + k) '.' ≠ '.') then
      (p.take d, p.drop d)
    else (p, [])
  else (p, [])

/-- Embeds the truncation loop
`while len(base.encode('utf-8')) > max_base: base = base[:-1]`
with fuel.  With fuel `base.length` the result is `none` exactly when the
Python loop runs forever: dropping characters strictly shrinks the base, so
after `base.length` steps the base is empty, and if the loop guard still
holds on the empty base it holds forever. -/
def truncBase (fuel : Nat) (base : Str) (maxBase : Int) : Option Str :=
  if (utf8Len base : Int) ≤ maxBase then some base
  else
    match fuel with
    | 0 => none
    | n + 1 => truncBase n base.dropLast maxBase

/-- Placeholder used when normalization empties the name. -/
def placeholderName : Str := "_renamed_".toList

/-- The character-replacement pass of `normalize_filename`. -/
def replaceAll (s : Str) : Str := (s.map replaceChar).flatten

/-- The control-character removal pass
`''.join(c for c in result if ord(c) >= 32)`. -/
def removeCtl (s : Str) : Str := s.filter (fun c => decide (32 ≤ c.toNat))

/-- `normalize_filename` before the length truncation: replacement,
control removal, strip of spaces then of trailing dots, and the
`_renamed_` placeholder when the result is empty. -/
def preTrunc (name : Str) : Str :=
  let r3 := rstripDots (stripSpaces (removeCtl (replaceAll name)))
  if r3 = [] then placeholderName else r3

/-- Embeds `FilenameIssuesManager.normalize_filename`.  Returns `none` when
the final truncation loop of the source does not terminate. -/
def normalize_filename (name : Str) : Option Str :=
  let r4 := preTrunc name
  if 255 < utf8Len r4 then
    let be := splitext r4
    let maxBase : Int := 255 - (utf8Len be.2 : Int) - 1
    match truncBase be.1.length be.1 maxBase with
    | some b => some (b ++ be.2)
    | none => none
  else some r4

/-! ## sync_manager.py : filename detection -/

/-- Embeds `SyncManager.PROBLEMATIC_CHARS` in dict order. -/
def problematicChars : List (Char × String) :=
  [(bslash, "backslash"), (':', "colon"), ('*', "asterisk"),
   ('?', "question_mark"), (dquote, "double_quote"), ('<', "less_than"),
   ('>', "greater_than"), ('|', "pipe"), (nulChar, "null_byte")]

/-- Embeds `SyncManager._check_filename`: first matching rule wins. -/
def check_filename (name : Str) : Option (String × Option Char) :=
  match problematicChars.find? (fun p => name.contains p.1) with
  | some p => some (p.2, some p.1)
  | none =>
    match name.find? (fun c => decide (c.toNat < 32)) with
    | some c => some ("control_char", some c)
    | none =>
      if name.head? = some ' ' then some ("leading_space", some ' ')
      else if name.getLast? = some ' ' then some ("trailing_space", some ' ')
      else if name.getLast? = some '.' ∧ name ≠ ['.'] ∧ name ≠ ['.', '.'] then
        some ("trailing_dot", some '.')
      else if 255 < utf8Len name then some ("too_long", none)
      else none

/-! ## sync_manager.py : item distribution -/

/-- One top-level source item `(name, file_count, byte_count)`. -/
structure SyncItem where
  name : String
  files : Nat
  bytes : Nat
deriving DecidableEq

/-- Minimum of a list of naturals (0 for the empty list, never used there). -/
def listMin : List Nat → Nat
  | [] => 0
  | [x] => x
  | x :: y :: t => min x (listMin (y :: t))

/-- Maximum of a list of naturals. -/
def listMax : List Nat → Nat
  | [] => 0
  | x :: t => max x (listMax t)

/-- Embeds `min(range(num_workers), key=lambda w: worker_loads[w])`: the
first index attaining the minimum load. -/
def argmin : List Nat → Nat
  | [] => 0
  | [_] => 0
  | x :: y :: t => if x ≤ listMin (y :: t) then 0 else argmin (y :: t) + 1

/-- The loop body of `SyncManager._distribute_items`, threading the bins and
their byte loads. -/
def distributeAux : List SyncItem → List (List SyncItem) → List Nat →
    List (List SyncItem) × List Nat
  | [], bins, loads => (bins, loads)
  | it :: rest, bins, loads =>
    let w := argmin loads
    distributeAux rest (bins.set w (bins.getD w [] ++ [it]))
      (loads.set w (loads.getD w 0 + it.bytes))

/-- Embeds `SyncManager._distribute_items`. -/
def distribute_items (items : List SyncItem) (numWorkers : Nat) :
    List (List SyncItem) :=
  if items = [] then List.replicate numWorkers []
  else (distributeAux items (List.replicate numWorkers [])
    (List.replicate numWorkers 0)).1

/-- Total byte count of a partition. -/
def partBytes (l : List SyncItem) : Nat := (l.map (·.bytes)).sum

/-- Modelled from the spec: the assignment rule of component 4.D in the
specification's own words, "assign to the bin with current minimum load,
ties broken by lowest bin index" - the first index whose load equals the
minimum.  Used to compare the source's `argmin` against the specified rule. -/
def firstMinIndexSpec (loads : List Nat) : Nat :=
  ((List.range loads.length).find? (fun i => loads.getD i 0 == listMin loads)).getD 0

/-- Modelled from the spec: the 4.D distribution loop restated with the
specification's assignment rule, for the refinement comparison in C8. -/
def distributeSpecAux : List SyncItem → List (List SyncItem) → List Nat →
    List (List SyncItem) × List Nat
  | [], bins, loads => (bins, loads)
  | it :: rest, bins, loads =>
    let w := firstMinIndexSpec loads
    distributeSpecAux rest (bins.set w (bins.getD w [] ++ [it]))
      (loads.set w (loads.getD w 0 + it.bytes))

/-- Modelled from the spec: `distribute(items, N)` per section 4.D. -/
def distributeSpec (items : List SyncItem) (numWorkers : Nat) :
    List (List SyncItem) :=
  if items = [] then List.replicate numWorkers []
  else (distributeSpecAux items (List.replicate numWorkers [])
    (List.replicate numWorkers 0)).1

/-! ## Progress records and the sequential run pipeline

`_run_sync` spawns the workers as asyncio tasks over shared mutable
progress.  The embedding executes them sequentially (one legal cooperative
schedule) with the external transfer tool abstracted as an oracle
`exec : String → Int` giving the exit code per item, the mount healthy and
no stop request, and collects every published progress snapshot.  Timing is
chosen so that no throttled mid-transfer update fires (the transfer tool
emits no progress line before finishing an item), which the 500 ms throttle
permits. -/

/-- Worker status strings used by `_run_worker`. -/
inductive WStatus
  | pending | running | stopping | stopped | completed | failed
deriving DecidableEq

/-- Job status enum of `models/sync_job.py`. -/
inductive JStatus
  | idle | running | completed | failed | stopped
deriving DecidableEq

/-- Modelled from the spec: the `WorkerProgress` record of section 3 (the
pydantic class is referenced by `sync_manager.py` but its definition is not
among the source files); counters default to zero, status to pending. -/
structure WorkerProg where
  workerId : Nat
  items : List String
  filesTotal : Nat := 0
  bytesTotal : Nat := 0
  filesTransferred : Nat := 0
  bytesTransferred : Nat := 0
  status : WStatus := .pending
deriving DecidableEq

/-- The numeric fields of `SyncProgress` (plus the `workers` list which the
engine attaches; the spec's section 3 lists it).  `percent_complete` is a
Python float modelled as an exact rational. -/
structure Prog where
  filesTotal : Nat := 0
  filesTransferred : Nat := 0
  bytesTotal : Nat := 0
  bytesTransferred : Nat := 0
  percentComplete : ℚ := 0
  status : JStatus := .idle
  workers : List WorkerProg := []
deriving DecidableEq

/-- Sum of the per-worker transferred file counters, as
`sum(w.files_transferred for w in progress.workers)`. -/
def sumWorkerFiles (ws : List WorkerProg) : Nat :=
  (ws.map (·.filesTransferred)).sum

/-- Sum of the per-worker transferred byte counters. -/
def sumWorkerBytes (ws : List WorkerProg) : Nat :=
  (ws.map (·.bytesTransferred)).sum

/-- In-place update of the worker slot at an index, as the Python
`progress.workers[worker_id]` mutations (no-op out of range, which the
engine never does). -/
def updSlot : List WorkerProg → Nat → (WorkerProg → WorkerProg) → List WorkerProg
  | [], _, _ => []
  | w :: t, 0, g => g w :: t
  | w :: t, n + 1, g => w :: updSlot t n g

/-- Transferred-file counter of the slot at an index (0 out of range). -/
def slotFiles : List WorkerProg → Nat → Nat
  | [], _ => 0
  | w :: _, 0 => w.filesTransferred
  | _ :: t, n + 1 => slotFiles t n

/-- Transferred-byte counter of the slot at an index (0 out of range). -/
def slotBytes : List WorkerProg → Nat → Nat
  | [], _ => 0
  | w :: _, 0 => w.bytesTransferred
  | _ :: t, n + 1 => slotBytes t n

/-- Error line recorded by `_run_worker` for a failed item. -/
def syncErrorMsg (wid : Nat) (n : String) : String :=
  "Worker " ++ toString wid ++ " failed to sync " ++ n

/-- The item-completion update of `_run_worker` (lines 768-779): write the
credited totals into the worker slot, recompute the aggregate counters,
and recompute the percentage under the `bytes_total > 0` guard. -/
def stepProg (wid : Nat) (f b : Nat) (prog : Prog) : Prog :=
  let ws := updSlot prog.workers wid
    (fun w => { w with filesTransferred := f, bytesTransferred := b })
  { prog with
    workers := ws
    filesTransferred := sumWorkerFiles ws
    bytesTransferred := sumWorkerBytes ws
    percentComplete :=
      if 0 < prog.bytesTotal then
        (sumWorkerBytes ws : ℚ) / (prog.bytesTotal : ℚ) * 100
      else prog.percentComplete }

/-- The per-item loop of `_run_worker` (lines 664-802): on exit code 0 the
item's pre-counted files and bytes are credited to the worker slot, the
aggregate counters and the percentage are recomputed and a snapshot is
published; on any other exit code except -15 an error line is appended. -/
def runWorkerItems (exec : String → Int) (wid : Nat) :
    List SyncItem → Nat → Nat → List String → Prog →
    (Nat × Nat × List String) × Prog × List Prog
  | [], fd, bd, errs, prog => ((fd, bd, errs), prog, [])
  | it :: rest, fd, bd, errs, prog =>
    if exec it.name = 0 then
      let prog' := stepProg wid (fd + it.files) (bd + it.bytes) prog
      let r := runWorkerItems exec wid rest (fd + it.files) (bd + it.bytes) errs prog'
      (r.1, r.2.1, prog' :: r.2.2)
    else if exec it.name = -15 then
      runWorkerItems exec wid rest fd bd errs prog
    else
      runWorkerItems exec wid rest fd bd (errs ++ [syncErrorMsg wid it.name]) prog

/-- Entry of `_run_worker`: mark the worker slot running (line 658). -/
def workerStart (wid : Nat) (prog : Prog) : Prog :=
  { prog with
    workers := updSlot prog.workers wid (fun w => { w with status := WStatus.running }) }

/-- Exit of `_run_worker` (lines 804-806): completed without errors, failed
otherwise (the stop path does not occur in this schedule). -/
def workerFinish (wid : Nat) (erro : List String) (pr : Prog) : Prog :=
  { pr with
    workers := updSlot pr.workers wid (fun w => { w with status := if erro = [] then WStatus.completed else WStatus.failed }) }

/-- Embeds `_run_worker` for one worker: mark the slot running, process the
partition, then mark it completed or failed by whether errors accumulated. -/
def runWorker (exec : String → Int) (wid : Nat) (its : List SyncItem)
    (prog : Prog) : (Nat × Nat × List String) × Prog × List Prog :=
  let r := runWorkerItems exec wid its 0 0 [] (workerStart wid prog)
  (r.1, workerFinish wid r.1.2.2 r.2.1, r.2.2)

/-- Runs the workers of `_run_sync` one after another (a legal cooperative
schedule of the spawned tasks), threading the shared progress record. -/
def runWorkersSeq (exec : String → Int) :
    List (List SyncItem) → Nat → Prog →
    List (Nat × Nat × List String) × Prog × List Prog
  | [], _, prog => ([], prog, [])
  | its :: rest, wid, prog =>
    let r := runWorker exec wid its prog
    let rr := runWorkersSeq exec rest (wid + 1) r.2.1
    (r.1 :: rr.1, rr.2.1, r.2.2 ++ rr.2.2)

/-- The per-run statistics of `JobStats` that the claims mention. -/
structure JStats where
  filesSynced : Nat
  bytesTransferred : Nat
  errorCount : Nat
deriving DecidableEq

/-- Result of one run: final stats, final progress record, and every
published numeric snapshot in publish order. -/
structure RunOutcome where
  stats : JStats
  finalProg : Prog
  snapshots : List Prog
deriving DecidableEq

/-- Worker count of `_run_sync` (line 835): reduced to the item count,
clamped at 1 when there are no items. -/
def numWorkersOf (items : List SyncItem) (parallelJobs : Nat) : Nat :=
  if items = [] then 1 else min parallelJobs items.length

/-- The `WorkerProgress` list built at lines 843-853. -/
def initWorkers (workerItems : List (List SyncItem)) (numWorkers : Nat) :
    List WorkerProg :=
  (List.range numWorkers).map (fun i =>
    ({ workerId := i
       items := (workerItems.getD i []).map (·.name)
       filesTotal := ((workerItems.getD i []).map (·.files)).sum
       bytesTotal := ((workerItems.getD i []).map (·.bytes)).sum
       status := .pending } : WorkerProg))

/-- The progress record as published before the workers start (lines
840-857). -/
def initProg (items : List SyncItem) (ws : List WorkerProg) : Prog :=
  { filesTotal := (items.map (·.files)).sum
    bytesTotal := (items.map (·.bytes)).sum
    status := .running
    workers := ws }

/-- Terminal progress update of lines 943-955 (no stop requested): zero
errors give status completed with percent forced to 100, otherwise
failed. -/
def finishProg (allErrors : List String) (progEnd : Prog) : Prog :=
  if allErrors = [] then
    { progEnd with status := .completed, percentComplete := 100 }
  else { progEnd with status := .failed }

/-- Embeds `_run_sync` (lines 810-990) for a run that is not stopped: scan
totals, reduce the worker count to `min(parallel_jobs, len(items))` (1 when
there are no items), distribute, run the workers, aggregate their results
with the zero-sum fallback of lines 929-930, and set the terminal status
and final snapshot of lines 943-955 and 990. -/
def run_sync (exec : String → Int) (items : List SyncItem)
    (parallelJobs : Nat) : RunOutcome :=
  let numWorkers := numWorkersOf items parallelJobs
  let workerItems := distribute_items items numWorkers
  let prog0 := initProg items (initWorkers workerItems numWorkers)
  let r := runWorkersSeq exec workerItems 0 prog0
  let totalFilesDone := (r.1.map (·.1)).sum
  let totalBytesDone := (r.1.map (·.2.1)).sum
  let allErrors : List String := (r.1.map (·.2.2)).flatten
  { stats :=
      { filesSynced :=
          if 0 < totalFilesDone then totalFilesDone else (items.map (·.files)).sum
        bytesTransferred :=
          if 0 < totalBytesDone then totalBytesDone else (items.map (·.bytes)).sum
        errorCount := allErrors.length }
    finalProg := finishProg allErrors r.2.1
    snapshots := (prog0 :: r.2.2) ++ [finishProg allErrors r.2.1] }

/-- The claimed snapshot invariant of C3:
`percent_complete = bytes_transferred / bytes_total * 100` when
`bytes_total > 0`, otherwise 0. -/
def percentOk (p : Prog) : Bool :=
  if 0 < p.bytesTotal then
    decide (p.percentComplete = (p.bytesTransferred : ℚ) / (p.bytesTotal : ℚ) * 100)
  else decide (p.percentComplete = 0)

/-! ## sync_manager.py : start_job -/

/-- The `SyncJob` fields that `start_job` reads or writes. -/
structure MJob where
  id : String
  sourcePath : String
  status : JStatus := .idle
  lastRunAt : Option Nat := none
deriving DecidableEq

/-- Manager state touched by `start_job`: the job dict, the keys of
`running_processes`, the progress map and a persistence counter standing
for calls to `save_jobs`. -/
structure MgrState where
  jobs : List (String × MJob)
  runningJobs : List String := []
  progressJobs : List String := []
  saveCount : Nat := 0
deriving DecidableEq

/-- Dictionary lookup `self.jobs.get(job_id)`. -/
def lookupJob (st : MgrState) (jobId : String) : Option MJob :=
  (st.jobs.find? (fun p => p.1 == jobId)).map (·.2)

/-- Result of `start_job`: the `(ok, message)` pair, the state after the
call, and whether a run task was spawned. -/
structure StartOut where
  ok : Bool
  msg : String
  state : MgrState
  spawned : Bool

/-- State after a successful start: the job dict rewritten at the started
job, the fresh progress record registered, and one `save_jobs` call. -/
def startedState (st : MgrState) (jobId : String) (j' : MJob) : MgrState :=
  { st with
    jobs := st.jobs.map (fun p => if p.1 == jobId then (p.1, j') else p)
    progressJobs := jobId :: st.progressJobs
    saveCount := st.saveCount + 1 }

/-- Embeds `SyncManager.start_job` (lines 192-227).  The mount-health
probes perform OS calls and are passed in as an oracle
`health : path → (is_healthy, message)`. -/
def start_job (health : String → Bool × String) (mountPoint : String)
    (st : MgrState) (jobId : String) (now : Nat) : StartOut :=
  match lookupJob st jobId with
  | none => ⟨false, "Job not found", st, false⟩
  | some job =>
    if st.runningJobs.contains jobId then ⟨false, "Job is already running", st, false⟩
    else if (health mountPoint).1 = false then
      ⟨false, "Cannot start job: " ++ (health mountPoint).2, st, false⟩
    else if (health job.sourcePath).1 = false then
      ⟨false, "Source path not accessible: " ++ (health job.sourcePath).2, st, false⟩
    else
      ⟨true, "Job started",
        startedState st jobId { job with status := JStatus.running, lastRunAt := some now },
        true⟩

/-! ## filename_issues.py : rename_file -/

/-- Issue status strings. -/
inductive IStatus
  | pending | renamed | skipped | failed
deriving DecidableEq

/-- The `FilenameIssue` fields that `rename_file` reads or writes.
Modelled from the spec: the pydantic class itself is referenced but not
among the source files; field set per section 3, status defaulting to
pending. -/
structure FnIssue where
  id : String
  filename : String
  sourcePath : String
  suggestedName : Option String := none
  status : IStatus := .pending
  resolvedAt : Option Nat := none
deriving DecidableEq

/-- Issue-store state: the issue dict and a persistence counter standing
for calls to `save`. -/
structure IssueStore where
  issues : List (String × FnIssue)
  saveCount : Nat := 0
deriving DecidableEq

/-- Dictionary lookup `self.issues.get(issue_id)`. -/
def lookupIssue (st : IssueStore) (issueId : String) : Option FnIssue :=
  (st.issues.find? (fun p => p.1 == issueId)).map (·.2)

/-- Replace the stored issue under a key. -/
def setIssue (st : IssueStore) (issueId : String) (iss : FnIssue) : IssueStore :=
  { st with issues := st.issues.map (fun p => if p.1 == issueId then (p.1, iss) else p) }

/-- Embeds `os.path.dirname` (posixpath variant). -/
def dirnamePath (p : Str) : Str :=
  match rfindIdx '/' p with
  | none => []
  | some i =>
    let head := p.take (i + 1)
    if head.all (fun c => c = '/') then head
    else (head.reverse.dropWhile (fun c => c = '/')).reverse

/-- Embeds `os.path.join` for two components. -/
def joinPath (a b : Str) : Str :=
  if b.head? = some '/' then b
  else if a = [] ∨ a.getLast? = some '/' then a ++ b
  else a ++ '/' :: b

/-- Embeds `target_name = new_name or issue.suggested_name`: Python `or`
falls through on an empty (falsy) string. -/
def effectiveTarget (issue : FnIssue) (newName : Option String) : Option String :=
  match newName with
  | some n => if n = "" then issue.suggestedName else some n
  | none => issue.suggestedName

/-- Filesystem oracle for `rename_file`: existence probe and whether the
`shutil.move` of a source to a target raises. -/
structure RenameFsOracle where
  pathExists : Str → Bool
  moveOk : Str → Str → Bool

/-- Result of `rename_file`: the `(success, message)` pair, the store after
the call, and whether `save` ran. -/
structure RenameOut where
  ok : Bool
  msg : String
  store : IssueStore
  saved : Bool

/-- One call to the issue store's `save`. -/
def saveStore (st : IssueStore) : IssueStore :=
  { st with saveCount := st.saveCount + 1 }

/-- Embeds `FilenameIssuesManager.rename_file` (lines 147-186). -/
def rename_file (fs : RenameFsOracle) (st : IssueStore) (issueId : String)
    (newName : Option String) (now : Nat) : RenameOut :=
  match lookupIssue st issueId with
  | none => ⟨false, "Issue not found", st, false⟩
  | some issue =>
    if issue.status ≠ IStatus.pending then
      ⟨false, "Issue already resolved", st, false⟩
    else
      match effectiveTarget issue newName with
      | none => ⟨false, "No target name provided or suggested", st, false⟩
      | some target =>
        if target = "" then ⟨false, "No target name provided or suggested", st, false⟩
        else if target = issue.filename then
          ⟨false, "New name is same as original", st, false⟩
        else
          let newPath := joinPath (dirnamePath issue.sourcePath.toList) target.toList
          if fs.pathExists newPath then ⟨false, "Target already exists", st, false⟩
          else if fs.moveOk issue.sourcePath.toList newPath then
            ⟨true, "Renamed to " ++ target,
              saveStore (setIssue st issueId
                { issue with status := IStatus.renamed, resolvedAt := some now }), true⟩
          else
            ⟨false, "Rename failed",
              saveStore (setIssue st issueId { issue with status := IStatus.failed }), true⟩

/-! ## sync_manager.py : load_jobs -/

/-- One entry of the parsed `jobs` array: either a record that validates
into a `SyncJob` or one that raises in the model constructor. -/
inductive RecParse
  | okRec (j : MJob)
  | badRec
deriving DecidableEq

/-- A candidate persistence file as `load_jobs` observes it: absent,
unparseable JSON, or a parsed record list. -/
inductive FileState
  | missing
  | badJson
  | goodJson (rs : List RecParse)
deriving DecidableEq

/-- Dict insertion `self.jobs[job.id] = job` after forcing the status to
idle (container-restart reset). -/
def insertLoaded (jobs : List (String × MJob)) (j : MJob) : List (String × MJob) :=
  let j' := { j with status := JStatus.idle }
  if jobs.any (fun p => p.1 == j.id) then
    jobs.map (fun p => if p.1 == j.id then (p.1, j') else p)
  else jobs ++ [(j.id, j')]

/-- Process the records of one parsed file in order; a record that fails
validation aborts the file's loop (the exception propagates out of the
`for`), keeping the records already inserted.  The flag tells whether the
whole file loaded without error. -/
def applyRecs (jobs : List (String × MJob)) : List RecParse →
    List (String × MJob) × Bool
  | [] => (jobs, true)
  | .okRec j :: rest => applyRecs (insertLoaded jobs j) rest
  | .badRec :: _ => (jobs, false)

/-- Outcome of `load_jobs`: the in-memory job dict and whether a
`.corrupted` sibling of the canonical file was written. -/
structure LoadOut where
  jobs : List (String × MJob)
  corruptedWritten : Bool
deriving DecidableEq

/-- One iteration of the candidate-file loop of `load_jobs`: returns the
jobs, whether the file loaded completely (causing the early `return`), and
whether a `.corrupted` sibling was written (only for a JSON parse error on
the canonical file). -/
def loadOneFile (jobs : List (String × MJob)) (fs : FileState) (isMain : Bool) :
    List (String × MJob) × Bool × Bool :=
  match fs with
  | .missing => (jobs, false, false)
  | .badJson => (jobs, false, isMain)
  | .goodJson rs =>
    let r := applyRecs jobs rs
    (r.1, r.2, false)

/-- Embeds `SyncManager.load_jobs` (lines 41-72) over the two candidate
files. -/
def load_jobs (main backup : FileState) : LoadOut :=
  let r1 := loadOneFile [] main true
  if r1.2.1 then ⟨r1.1, r1.2.2⟩
  else
    let r2 := loadOneFile r1.1 backup false
    ⟨r2.1, r1.2.2 || r2.2.2⟩

/-! ## Claim predicates and concrete instances -/

/-- The printable members of the claimed forbidden character set of C6
(NUL and the other control characters are covered by the code-point
bound). -/
def forbiddenPrintables : List Char :=
  [bslash, ':', '*', '?', dquote, '<', '>', '|']

/-- A character admissible in a normalized name per C6: not one of the
eight forbidden printables and not in 0x00-0x1F (which covers NUL). -/
def charOk (c : Char) : Bool :=
  decide (c ∉ forbiddenPrintables) && decide (32 ≤ c.toNat)

/-- C2 failing input: `a.` followed by 254 `x`, whose extension after the
last dot is 255 UTF-8 bytes. -/
def longExtName : Str := 'a' :: '.' :: List.replicate 254 'x'

/-- Scenario S2 of the spec: six items of sizes 9, 8, 5, 4, 2, 2. -/
def s2Items : List SyncItem :=
  [⟨"a", 1, 9⟩, ⟨"b", 1, 8⟩, ⟨"c", 1, 5⟩, ⟨"d", 1, 4⟩, ⟨"e", 1, 2⟩, ⟨"f", 1, 2⟩]

/-- Two positive-size items used by the C5 witness. -/
def posItems : List SyncItem := [⟨"a", 1, 3⟩, ⟨"b", 1, 2⟩]

/-- Two zero-byte items: the C5 counterexample input. -/
def zeroByteItems : List SyncItem := [⟨"a", 1, 0⟩, ⟨"b", 1, 0⟩]

/-- A single 100-byte item whose transfer fails: the C1 counterexample
input. -/
def failingItem : List SyncItem := [⟨"a", 1, 100⟩]

/-- A pending issue on the file `a:b` with suggested name `a-b`. -/
def exIssue : FnIssue :=
  { id := "i1", filename := "a:b", sourcePath := "/data/src/a:b",
    suggestedName := some "a-b" }

/-- Issue store holding just `exIssue`. -/
def exIssueStore : IssueStore := ⟨[("i1", exIssue)], 0⟩

/-- Filesystem oracle where no target exists and every move succeeds. -/
def exRenameFs : RenameFsOracle := ⟨fun _ => false, fun _ _ => true⟩

/-- The renamed issue that a successful `rename_file` with the suggested
name stores. -/
def exIssueRenamed : FnIssue :=
  { exIssue with status := IStatus.renamed, resolvedAt := some 7 }

/-- An idle job with a healthy source, for the C9 witness. -/
def exJob : MJob := { id := "j1", sourcePath := "/data/src" }

/-- Manager state holding just `exJob`, nothing running. -/
def exMgrState : MgrState := ⟨[("j1", exJob)], [], [], 0⟩

/-- Health oracle reporting every path healthy. -/
def exHealth : String → Bool × String := fun _ => (true, "")

/-! ## Verification of the claims -/

/-- C2: the claim asserts `normalize_filename` is total with results of at
most 255 UTF-8 bytes.  The code is wrong: on a name whose extension after
the last dot is 255 bytes, `max_base` is -1 and the truncation loop
`while len(base.encode("utf-8")) > max_base` cannot exit even on the empty
base, so the function never returns.  The fuel-complete embedding returns
`none` exactly on such divergence, and evaluates to `none` on the failing
input. -/
theorem c2_divergence : normalize_filename longExtName = none := by
  decide

/-- C1 counterexample: a run of one 100-byte, 1-file item whose transfer
fails ends with zero files and bytes transferred by the workers, yet the
final stats report the full scanned totals (1 file, 100 bytes) because of
the `if total_files_done > 0 else total_files` fallback - contradicting
the claim that the stats equal the workers' sums even in the zero case. -/
theorem c1_counterexample :
    (run_sync (fun _ => 1) failingItem 1).stats.filesSynced = 1 ∧
    (run_sync (fun _ => 1) failingItem 1).stats.bytesTransferred = 100 ∧
    sumWorkerFiles (run_sync (fun _ => 1) failingItem 1).finalProg.workers = 0 ∧
    sumWorkerBytes (run_sync (fun _ => 1) failingItem 1).finalProg.workers = 0 ∧
    0 < (run_sync (fun _ => 1) failingItem 1).stats.errorCount := by
  decide

/-- C3 counterexample: a zero-error run over an empty source terminates
completed with `bytes_total = 0`, and its final published snapshot has
`percent_complete = 100`, not 0 as the claim requires when
`bytes_total = 0`. -/
theorem c3_counterexample :
    (run_sync (fun _ => 0) ([] : List SyncItem) 4).stats.errorCount = 0 ∧
    (run_sync (fun _ => 0) ([] : List SyncItem) 4).finalProg.status = JStatus.completed ∧
    (run_sync (fun _ => 0) ([] : List SyncItem) 4).finalProg.bytesTotal = 0 ∧
    percentOk (run_sync (fun _ => 0) ([] : List SyncItem) 4).finalProg = false ∧
    (run_sync (fun _ => 0) ([] : List SyncItem) 4).finalProg ∈
      (run_sync (fun _ => 0) ([] : List SyncItem) 4).snapshots := by
  decide

/-- C5 counterexample: two zero-byte items with worker count
`min(2, 2) = 2` both land in bin 0 (its load never rises above the
minimum), leaving partition 1 empty although the item list is non-empty. -/
theorem c5_counterexample :
    zeroByteItems ≠ [] ∧
    [] ∈ distribute_items zeroByteItems (min 2 zeroByteItems.length) := by
  decide

/-- C6 counterexample: normalization is not idempotent.  Stripping the
trailing dot of `a .` exposes a trailing space (`a `), which a second
normalization removes, giving `a`. -/
theorem c6_counterexample :
    normalize_filename ['a', ' ', '.'] = some ['a', ' '] ∧
    normalize_filename ['a', ' '] = some ['a'] ∧
    (normalize_filename ['a', ' ', '.']).bind normalize_filename ≠
      normalize_filename ['a', ' ', '.'] := by
  decide

/-- C7 counterexample: the detector reports no issue for the name `.`
(the trailing-dot rule explicitly excludes `.` and `..`), yet
normalization strips it to the empty string and substitutes the
`_renamed_` placeholder, so normalization is not the identity there. -/
theorem c7_counterexample :
    check_filename ['.'] = none ∧ normalize_filename ['.'] ≠ some ['.'] := by
  decide

/-- C4 counterexample: `rename_file` on a pending issue with a target name
equal to the original filename fails, but the issue stays pending and the
store is not persisted - contradicting the claim that every failure sets
the status to failed and persists. -/
theorem c4_counterexample :
    (rename_file exRenameFs exIssueStore "i1" (some "a:b") 5).ok = false ∧
    (rename_file exRenameFs exIssueStore "i1" (some "a:b") 5).saved = false ∧
    lookupIssue (rename_file exRenameFs exIssueStore "i1" (some "a:b") 5).store "i1" =
      some exIssue ∧
    exIssue.status = IStatus.pending := by
  decide

/-! ### Helper lemmas: normalization output characters (C6) -/

/-- Characters produced by the replacement pass avoid the eight forbidden
printables. -/
lemma replaceChar_not_printable {c d : Char} (h : d ∈ replaceChar c) :
    d ∉ forbiddenPrintables := by
  unfold replaceChar at h
  split_ifs at h with h1 h2 h3 h4 h5 h6 h7 h8 h9
  all_goals simp_all [forbiddenPrintables, bslash, dquote, squote, nulChar]

/-- Characters of `replaceAll s` avoid the eight forbidden printables. -/
lemma mem_replaceAll_not_printable {s : Str} {d : Char} (h : d ∈ replaceAll s) :
    d ∉ forbiddenPrintables := by
  simp only [replaceAll, List.mem_flatten, List.mem_map] at h
  obtain ⟨l, ⟨c, _, rfl⟩, hd⟩ := h
  exact replaceChar_not_printable hd

/-- Membership through the control filter. -/
lemma mem_removeCtl {s : Str} {d : Char} (h : d ∈ removeCtl s) :
    d ∈ s ∧ 32 ≤ d.toNat := by
  simp only [removeCtl, List.mem_filter, decide_eq_true_eq] at h
  exact h

/-- Membership through `dropWhile`. -/
lemma mem_dropWhile {p : Char → Bool} {s : Str} {d : Char}
    (h : d ∈ s.dropWhile p) : d ∈ s :=
  (List.dropWhile_sublist p).subset h

/-- Membership through the space strip. -/
lemma mem_stripSpaces {s : Str} {d : Char} (h : d ∈ stripSpaces s) : d ∈ s := by
  unfold stripSpaces at h
  rw [List.mem_reverse] at h
  have := mem_dropWhile h
  rw [List.mem_reverse] at this
  exact mem_dropWhile this

/-- Membership through the trailing-dot strip. -/
lemma mem_rstripDots {s : Str} {d : Char} (h : d ∈ rstripDots s) : d ∈ s := by
  unfold rstripDots at h
  rw [List.mem_reverse] at h
  have := mem_dropWhile h
  rwa [List.mem_reverse] at this

/-- Every character of `preTrunc s` is admissible. -/
lemma preTrunc_chars_ok (s : Str) : ∀ d ∈ preTrunc s, charOk d = true := by
  intro d hd
  simp only [preTrunc] at hd
  split_ifs at hd with h3
  · revert hd; revert d; decide
  · have h1 := mem_stripSpaces (mem_rstripDots hd)
    obtain ⟨h2, hc⟩ := mem_removeCtl h1
    have := mem_replaceAll_not_printable h2
    simp [charOk, this, hc]

/-- A successful truncation only drops characters. -/
lemma truncBase_subset {base b : Str} {maxBase : Int} :
    ∀ {fuel : Nat}, truncBase fuel base maxBase = some b → ∀ d ∈ b, d ∈ base := by
  intro fuel
  induction fuel generalizing base with
  | zero =>
    intro h
    unfold truncBase at h
    split_ifs at h
    · injection h with h'; subst h'; exact fun d hd => hd
  | succ n ih =>
    intro h
    unfold truncBase at h
    split_ifs at h
    · injection h with h'; subst h'; exact fun d hd => hd
    · intro d hd
      exact (List.dropLast_sublist base).subset (ih h d hd)

/-- The first splitext component only keeps characters of the input. -/
lemma splitext_fst_subset (p : Str) : ∀ d ∈ (splitext p).1, d ∈ p := by
  intro d hd
  simp only [splitext] at hd
  split_ifs at hd
  · exact (List.take_sublist _ _).subset hd
  · exact hd
  · exact hd

/-- The second splitext component only keeps characters of the input. -/
lemma splitext_snd_subset (p : Str) : ∀ d ∈ (splitext p).2, d ∈ p := by
  intro d hd
  simp only [splitext] at hd
  split_ifs at hd
  · exact (List.drop_sublist _ _).subset hd
  · exact absurd hd (List.not_mem_nil d)
  · exact absurd hd (List.not_mem_nil d)

/-- C6, corrected: whenever `normalize_filename` returns, every character
of the result is outside the forbidden set (the eight printables, NUL and
the other control characters).  The idempotence half of the claim is
refuted by `c6_counterexample`. -/
theorem c6_amended (s r : Str) (h : normalize_filename s = some r) :
    r.all charOk = true := by
  rw [List.all_eq_true]
  intro d hd
  have hok := preTrunc_chars_ok s
  simp only [normalize_filename] at h
  split_ifs at h
  · rcases htb : truncBase (splitext (preTrunc s)).1.length (splitext (preTrunc s)).1
        (255 - (utf8Len (splitext (preTrunc s)).2 : Int) - 1) with _ | b
    · rw [htb] at h; exact absurd h (by simp)
    · rw [htb] at h
      injection h with h'
      subst h'
      rcases List.mem_append.mp hd with hb | he
      · exact hok d (splitext_fst_subset _ d (truncBase_subset htb d hb))
      · exact hok d (splitext_snd_subset _ d he)
  · injection h with h'
    subst h'
    exact hok d hd

/-- C6 witness: the amended theorem applied to the concrete name `a*b`. -/
theorem c6_witness : (['a', '_', 'b'] : Str).all charOk = true :=
  c6_amended ['a', '*', 'b'] ['a', '_', 'b'] (by decide)

/-! ### Helper lemmas: detection-clean names (C7) -/

/-- Unpacks `check_filename name = none` into the six negative facts the
detector established. -/
lemma check_filename_none_facts {name : Str} (h : check_filename name = none) :
    (∀ p ∈ problematicChars, name.contains p.1 = false) ∧
    (∀ c ∈ name, 32 ≤ c.toNat) ∧
    name.head? ≠ some ' ' ∧
    name.getLast? ≠ some ' ' ∧
    ¬(name.getLast? = some '.' ∧ name ≠ ['.'] ∧ name ≠ ['.', '.']) ∧
    utf8Len name ≤ 255 := by
  unfold check_filename at h
  cases hf : problematicChars.find? (fun p => name.contains p.1) with
  | some p => rw [hf] at h; exact absurd h (by simp)
  | none =>
    rw [hf] at h
    cases hc : name.find? (fun c => decide (c.toNat < 32)) with
    | some c => rw [hc] at h; exact absurd h (by simp)
    | none =>
      rw [hc] at h
      split_ifs at h with h1 h2 h3 h4
      refine ⟨?_, ?_, h1, h2, h3, by omega⟩
      · intro p hp
        have := List.find?_eq_none.mp hf p hp
        simpa using this
      · intro c hcm
        have := List.find?_eq_none.mp hc c hcm
        simp only [decide_eq_true_eq] at this
        omega

/-- On a character that is none of the nine problematic keys, the
replacement pass is the identity. -/
lemma replaceChar_eq_self {c : Char} (hp : c ∉ forbiddenPrintables)
    (h0 : c ≠ nulChar) : replaceChar c = [c] := by
  simp only [forbiddenPrintables, List.mem_cons, List.not_mem_nil, or_false,
    not_or] at hp
  obtain ⟨n1, n2, n3, n4, n5, n6, n7, n8⟩ := hp
  unfold replaceChar
  split_ifs
  rfl

/-- The replacement pass is the identity on a name whose characters all
avoid the nine keys. -/
lemma replaceAll_eq_self {s : Str} (h : ∀ c ∈ s, replaceChar c = [c]) :
    replaceAll s = s := by
  induction s with
  | nil => rfl
  | cons a t ih =>
    have ha := h a (List.mem_cons_self a t)
    have ht := ih (fun c hc => h c (List.mem_cons_of_mem a hc))
    simp only [replaceAll, List.map_cons, List.flatten_cons] at *
    rw [ha, ht]
    rfl

/-- The control filter is the identity on a name without control
characters. -/
lemma removeCtl_eq_self {s : Str} (h : ∀ c ∈ s, 32 ≤ c.toNat) :
    removeCtl s = s :=
  List.filter_eq_self.mpr (by intro a ha; simpa using h a ha)

/-- `dropWhile` is the identity when the head does not satisfy the
predicate. -/
lemma dropWhile_eq_self_of_head {p : Char → Bool} {s : Str}
    (h : ∀ x, s.head? = some x → p x = false) : s.dropWhile p = s := by
  cases s with
  | nil => rfl
  | cons a t =>
    have := h a rfl
    simp [List.dropWhile_cons, this]

/-- The space strip is the identity without leading or trailing spaces. -/
lemma stripSpaces_eq_self {s : Str} (h1 : s.head? ≠ some ' ')
    (h2 : s.getLast? ≠ some ' ') : stripSpaces s = s := by
  have e1 : s.dropWhile (fun c => decide (c = ' ')) = s := by
    apply dropWhile_eq_self_of_head
    intro x hx
    simp only [decide_eq_false_iff_not]
    intro hxe
    exact h1 (hxe ▸ hx)
  have e2 : s.reverse.dropWhile (fun c => decide (c = ' ')) = s.reverse := by
    apply dropWhile_eq_self_of_head
    intro x hx
    rw [List.head?_reverse] at hx
    simp only [decide_eq_false_iff_not]
    intro hxe
    exact h2 (hxe ▸ hx)
  unfold stripSpaces
  rw [e1, e2, List.reverse_reverse]

/-- The trailing-dot strip is the identity without a trailing dot. -/
lemma rstripDots_eq_self {s : Str} (h : s.getLast? ≠ some '.') :
    rstripDots s = s := by
  have e2 : s.reverse.dropWhile (fun c => decide (c = '.')) = s.reverse := by
    apply dropWhile_eq_self_of_head
    intro x hx
    rw [List.head?_reverse] at hx
    simp only [decide_eq_false_iff_not]
    intro hxe
    exact h (hxe ▸ hx)
  unfold rstripDots
  rw [e2, List.reverse_reverse]

/-- C7, corrected: on every name other than the empty string, `.` and `..`
for which the detector reports no issue, normalization is the identity.
(The three excluded names pass detection yet normalize to `_renamed_`;
see `c7_counterexample`.) -/
theorem c7_amended (name : Str) (h : check_filename name = none)
    (h0 : name ≠ []) (h1 : name ≠ ['.']) (h2 : name ≠ ['.', '.']) :
    normalize_filename name = some name := by
  obtain ⟨hcontains, hctl, hhead, hlast, hdot, hlen⟩ := check_filename_none_facts h
  have hdot' : name.getLast? ≠ some '.' := fun hh => hdot ⟨hh, h1, h2⟩
  have hkeys : ∀ p ∈ problematicChars, p.1 ∉ name := by
    intro p hp
    have := hcontains p hp
    intro hmem
    rw [List.contains_eq_any_beq] at this
    have : ¬ (name.any fun x => p.1 == x) = true := by simp [this]
    rw [List.any_eq_true] at this
    exact this ⟨p.1, hmem, by simp⟩
  have hrepl : ∀ c ∈ name, replaceChar c = [c] := by
    intro c hc
    apply replaceChar_eq_self
    · intro hmem
      have hkm : ∃ p ∈ problematicChars, p.1 = c := by
        revert hmem
        simp only [forbiddenPrintables, problematicChars, List.mem_cons,
          List.not_mem_nil, or_false]
        rintro (rfl | rfl | rfl | rfl | rfl | rfl | rfl | rfl) <;> simp
      obtain ⟨p, hp, hpc⟩ := hkm
      exact hkeys p hp (hpc ▸ hc)
    · intro hnul
      exact hkeys (nulChar, "null_byte") (by simp [problematicChars]) (hnul ▸ hc)
  have e1 : replaceAll name = name := replaceAll_eq_self hrepl
  have e2 : removeCtl name = name := removeCtl_eq_self hctl
  have e3 : stripSpaces name = name := stripSpaces_eq_self hhead hlast
  have e4 : rstripDots name = name := rstripDots_eq_self hdot'
  have e5 : preTrunc name = name := by
    simp only [preTrunc, e1, e2, e3, e4, if_neg h0]
  simp only [normalize_filename, e5, if_neg (by omega : ¬ 255 < utf8Len name)]

/-- C7 witness: the amended theorem applied to the clean name `ok.txt`. -/
theorem c7_witness : normalize_filename ("ok.txt".toList) = some ("ok.txt".toList) :=
  c7_amended ("ok.txt".toList) (by decide) (by decide) (by decide) (by decide)

/-! ### Helper lemmas: list minima, maxima and the greedy assignment -/

lemma listMin_le {l : List Nat} {x : Nat} (h : x ∈ l) : listMin l ≤ x := by
  induction l with
  | nil => exact absurd h (List.not_mem_nil x)
  | cons a t ih =>
    cases t with
    | nil =>
      rw [List.mem_singleton] at h
      simp [listMin, h]
    | cons b u =>
      rcases List.mem_cons.mp h with rfl | h2
      · exact min_le_left _ _
      · exact le_trans (min_le_right _ _) (ih h2)

lemma le_listMax {l : List Nat} {x : Nat} (h : x ∈ l) : x ≤ listMax l := by
  induction l with
  | nil => exact absurd h (List.not_mem_nil x)
  | cons a t ih =>
    rcases List.mem_cons.mp h with rfl | h2
    · exact le_max_left _ _
    · exact le_trans (ih h2) (le_max_right _ _)

lemma listMin_le_listMax {l : List Nat} (h : l ≠ []) : listMin l ≤ listMax l := by
  cases l with
  | nil => exact absurd rfl h
  | cons a t => exact le_trans (listMin_le (List.mem_cons_self a t)) (le_listMax (List.mem_cons_self a t))

lemma argmin_cons {a : Nat} {l : List Nat} (h : l ≠ []) :
    argmin (a :: l) = if a ≤ listMin l then 0 else argmin l + 1 := by
  cases l with
  | nil => exact absurd rfl h
  | cons b u => rfl

lemma argmin_lt {l : List Nat} (h : l ≠ []) : argmin l < l.length := by
  induction l with
  | nil => exact absurd rfl h
  | cons a t ih =>
    cases t with
    | nil => simp [argmin]
    | cons b u =>
      rw [argmin_cons (List.cons_ne_nil b u)]
      split_ifs
      · simp
      · have := ih (List.cons_ne_nil b u)
        show argmin (b :: u) + 1 < (b :: u).length + 1
        omega

lemma getD_argmin {l : List Nat} (h : l ≠ []) :
    l.getD (argmin l) 0 = listMin l := by
  induction l with
  | nil => exact absurd rfl h
  | cons a t ih =>
    cases t with
    | nil => simp [argmin, listMin]
    | cons b u =>
      rw [argmin_cons (List.cons_ne_nil b u)]
      split_ifs with ha
      · simp [listMin, Nat.min_eq_left ha]
      · have : listMin (a :: b :: u) = listMin (b :: u) := by
          simp [listMin, Nat.min_eq_right (le_of_not_le ha)]
        rw [this]
        simpa using ih (List.cons_ne_nil b u)

lemma set_append_len {α : Type} (p : List α) (x : α) (z : List α) (v : α) :
    (p ++ x :: z).set p.length v = p ++ v :: z := by
  induction p with
  | nil => rfl
  | cons a t ih => simp [List.set, ih]

lemma getD_append_len {α : Type} (p : List α) (x : α) (z : List α) (d : α) :
    (p ++ x :: z).getD p.length d = x := by
  induction p with
  | nil => rfl
  | cons a t ih => simp only [List.cons_append, List.length_cons, List.getD_cons_succ]; exact ih

lemma getD_set_self {α : Type} : ∀ (l : List α) (i : Nat) (v d : α),
    i < l.length → (l.set i v).getD i d = v
  | [], _, _, _, h => by simp at h
  | _ :: _, 0, _, _, _ => rfl
  | a :: t, n + 1, v, d, h => by
    have := getD_set_self t n v d (by simpa using h)
    simpa [List.set] using this

lemma getD_set_ne {α : Type} : ∀ (l : List α) (i j : Nat) (v d : α),
    i ≠ j → (l.set i v).getD j d = l.getD j d
  | [], _, _, _, _, _ => rfl
  | a :: t, 0, 0, v, d, h => absurd rfl h
  | a :: t, 0, m + 1, v, d, _ => rfl
  | a :: t, n + 1, 0, v, d, _ => rfl
  | a :: t, n + 1, m + 1, v, d, h => by
    have := getD_set_ne t n m v d (by omega)
    simpa [List.set] using this

lemma getD_replicate_self {α : Type} (c : α) : ∀ (n i : Nat),
    (List.replicate n c).getD i c = c := by
  intro n
  induction n with
  | zero => intro i; cases i <;> rfl
  | succ m ih =>
    intro i
    cases i with
    | zero => rfl
    | succ k => simp only [List.replicate_succ, List.getD_cons_succ]; exact ih k

lemma listMax_set_le (l : List Nat) (i v : Nat) :
    listMax (l.set i v) ≤ max (listMax l) v := by
  induction l generalizing i with
  | nil => simp [listMax]
  | cons a t ih =>
    cases i with
    | zero =>
      simp only [List.set, listMax]
      omega
    | succ n =>
      simp only [List.set, listMax]
      have := ih n
      omega

lemma le_listMin_set (l : List Nat) (i v : Nat) :
    min (listMin l) v ≤ listMin (l.set i v) := by
  induction l generalizing i with
  | nil => simp [listMin]
  | cons a t ih =>
    cases t with
    | nil =>
      cases i with
      | zero => simp [listMin, List.set]
      | succ n => simp [listMin, List.set]
    | cons b u =>
      cases i with
      | zero =>
        simp only [List.set, listMin]
        omega
      | succ n =>
        have hshape : ∃ c w, (b :: u).set n v = c :: w := by
          cases n with
          | zero => exact ⟨v, u, rfl⟩
          | succ m => exact ⟨b, u.set m v, rfl⟩
        obtain ⟨c, w, hcw⟩ := hshape
        have ihx : min (listMin (b :: u)) v ≤ listMin ((b :: u).set n v) := ih n
        rw [hcw] at ihx
        simp only [List.set, hcw, listMin]
        omega

lemma argmin_pos_prefix : ∀ (p z : List Nat), (∀ y ∈ p, 0 < y) →
    argmin (p ++ 0 :: z) = p.length := by
  intro p
  induction p with
  | nil =>
    intro z _
    cases z with
    | nil => rfl
    | cons b u => simp [argmin]
  | cons a t ih =>
    intro z hp
    have hne : t ++ 0 :: z ≠ [] := by simp
    rw [List.cons_append, argmin_cons hne]
    have h0 : listMin (t ++ 0 :: z) = 0 := by
      have hle := @listMin_le (t ++ 0 :: z) 0 (by simp)
      omega
    rw [h0]
    have ha : ¬ a ≤ 0 := by
      have := hp a (List.mem_cons_self a t)
      omega
    rw [if_neg ha, ih z (fun y hy => hp y (List.mem_cons_of_mem a hy))]
    rfl

/-! ### C5: non-empty partitions -/

/-- Invariant of the greedy loop: with positive-size items, the bins fill
in index order - the loads and bins split into a positive prefix and an
all-zero, all-empty suffix no longer than the remaining items, and every
final bin ends up non-empty. -/
lemma distributeAux_no_empty :
    ∀ (items : List SyncItem) (nb eb : List (List SyncItem)) (p z : List Nat),
    (∀ x ∈ p, 0 < x) → (∀ x ∈ z, x = 0) →
    (∀ l ∈ nb, l ≠ []) → (∀ l ∈ eb, l = []) →
    nb.length = p.length → eb.length = z.length →
    z.length ≤ items.length →
    (∀ it ∈ items, 0 < it.bytes) →
    ∀ l ∈ (distributeAux items (nb ++ eb) (p ++ z)).1, l ≠ [] := by
  intro items
  induction items with
  | nil =>
    intro nb eb p z hp hz hnb heb hlp hlz hle _
    have hz0 : z = [] := List.length_eq_zero.mp (Nat.le_zero.mp (by simpa using hle))
    subst hz0
    have heb0 : eb = [] := List.length_eq_zero.mp (by simpa using hlz)
    subst heb0
    simpa [distributeAux] using hnb
  | cons it rest ih =>
    intro nb eb p z hp hz hnb heb hlp hlz hle hbytes
    have hbit : 0 < it.bytes := hbytes it (List.mem_cons_self it rest)
    have hbytes' : ∀ x ∈ rest, 0 < x.bytes :=
      fun x hx => hbytes x (List.mem_cons_of_mem it hx)
    cases z with
    | nil =>
      have heb0 : eb = [] := List.length_eq_zero.mp (by simpa using hlz)
      subst heb0
      simp only [List.append_nil]
      simp only [distributeAux]
      have ihres := ih
        (nb.set (argmin p) (nb.getD (argmin p) [] ++ [it])) []
        (p.set (argmin p) (p.getD (argmin p) 0 + it.bytes)) []
        (by
          intro x hx
          rcases List.mem_or_eq_of_mem_set hx with h | h
          · exact hp x h
          · omega)
        (by intro x hx; exact absurd hx (List.not_mem_nil x))
        (by
          intro l hl
          rcases List.mem_or_eq_of_mem_set hl with h | h
          · exact hnb l h
          · simp [h])
        (by intro l hl; exact absurd hl (List.not_mem_nil l))
        (by simp [hlp])
        rfl
        (by simp)
        hbytes'
      simpa using ihres
    | cons z0 zr =>
      have hz00 : z0 = 0 := hz z0 (List.mem_cons_self z0 zr)
      subst hz00
      cases eb with
      | nil => simp at hlz
      | cons e0 er =>
        have he0 : e0 = [] := heb e0 (List.mem_cons_self e0 er)
        subst he0
        have harg : argmin (p ++ 0 :: zr) = p.length := argmin_pos_prefix p zr hp
        simp only [distributeAux, harg]
        have hbins : (nb ++ [] :: er).set p.length
            ((nb ++ [] :: er).getD p.length [] ++ [it]) = nb ++ [it] :: er := by
          rw [← hlp, getD_append_len, set_append_len]
          simp
        have hloads : (p ++ 0 :: zr).set p.length
            ((p ++ 0 :: zr).getD p.length 0 + it.bytes) = p ++ it.bytes :: zr := by
          rw [getD_append_len, set_append_len, Nat.zero_add]
        rw [hbins, hloads, List.append_cons nb [it] er,
          List.append_cons p it.bytes zr]
        apply ih (nb ++ [[it]]) er (p ++ [it.bytes]) zr
        · intro x hx
          rcases List.mem_append.mp hx with h | h
          · exact hp x h
          · rw [List.mem_singleton] at h
            omega
        · exact fun x hx => hz x (List.mem_cons_of_mem 0 hx)
        · intro l hl
          rcases List.mem_append.mp hl with h | h
          · exact hnb l h
          · rw [List.mem_singleton] at h
            simp [h]
        · exact fun l hl => heb l (List.mem_cons_of_mem [] hl)
        · simp [hlp]
        · simpa using Nat.succ_injective (by simpa using hlz)
        · have := hle
          simp only [List.length_cons] at this ⊢
          omega
        · exact hbytes'

/-- C5, corrected: with worker count `min(concurrency, len(items))`, no
partition is empty for a non-empty item list provided every item has a
positive byte count.  (Zero-byte items never raise the minimum load, so
they all land in bin 0 and later partitions stay empty; see
`c5_counterexample`.) -/
theorem c5_amended (items : List SyncItem) (pj : Nat) (h1 : items ≠ [])
    (h2 : 1 ≤ pj) (h3 : ∀ it ∈ items, 0 < it.bytes) :
    (distribute_items items (min pj items.length)).all
      (fun part => !part.isEmpty) = true := by
  rw [List.all_eq_true]
  intro part hpart
  have hk : 1 ≤ min pj items.length :=
    le_min h2 (Nat.succ_le_of_lt (List.length_pos.mpr h1))
  have hres : ∀ l ∈ (distribute_items items (min pj items.length)), l ≠ [] := by
    intro l hl
    rw [distribute_items, if_neg h1] at hl
    have := distributeAux_no_empty items [] (List.replicate (min pj items.length) [])
      [] (List.replicate (min pj items.length) 0)
      (by intro x hx; exact absurd hx (List.not_mem_nil x))
      (by intro x hx; exact List.eq_of_mem_replicate hx)
      (by intro l' hl'; exact absurd hl' (List.not_mem_nil l'))
      (by intro l' hl'; exact List.eq_of_mem_replicate hl')
      rfl
      (by simp)
      (by simp only [List.length_replicate]; exact min_le_right pj items.length)
      h3
    simp only [List.nil_append] at this
    exact this l hl
  have := hres part hpart
  simp [List.isEmpty_iff, this]

/-- C5 witness: the amended theorem on two positive-size items with
declared concurrency 2. -/
theorem c5_witness :
    (distribute_items posItems (min 2 posItems.length)).all
      (fun part => !part.isEmpty) = true :=
  c5_amended posItems 2 (by decide) (by decide) (by decide)

/-! ### C8: distributor preservation, balance and assignment rule -/

lemma distributeAux_lengths : ∀ (items : List SyncItem)
    (bins : List (List SyncItem)) (loads : List Nat),
    (distributeAux items bins loads).1.length = bins.length ∧
    (distributeAux items bins loads).2.length = loads.length := by
  intro items
  induction items with
  | nil => intro bins loads; exact ⟨rfl, rfl⟩
  | cons it rest ih =>
    intro bins loads
    simp only [distributeAux]
    obtain ⟨h1, h2⟩ := ih (bins.set (argmin loads) (bins.getD (argmin loads) [] ++ [it]))
      (loads.set (argmin loads) (loads.getD (argmin loads) 0 + it.bytes))
    rw [h1, h2, List.length_set, List.length_set]
    exact ⟨rfl, rfl⟩

lemma flatten_set_append {α : Type} : ∀ (bins : List (List α)) (w : Nat) (a : α),
    w < bins.length →
    ((bins.set w (bins.getD w [] ++ [a])).flatten).Perm (bins.flatten ++ [a])
  | [], w, a, h => by simp at h
  | b :: t, 0, a, _ => by
    simp only [List.set, List.getD_cons_zero, List.flatten_cons]
    rw [List.append_assoc, List.append_assoc]
    exact List.Perm.append_left b List.perm_append_comm
  | b :: t, w + 1, a, h => by
    simp only [List.set, List.getD_cons_succ, List.flatten_cons]
    have hrec := flatten_set_append t w a (by simpa using h)
    rw [List.append_assoc]
    exact List.Perm.append_left b hrec

lemma distributeAux_flatten_perm : ∀ (items : List SyncItem)
    (bins : List (List SyncItem)) (loads : List Nat),
    bins.length = loads.length → loads ≠ [] →
    ((distributeAux items bins loads).1.flatten).Perm (bins.flatten ++ items) := by
  intro items
  induction items with
  | nil =>
    intro bins loads _ _
    simp only [distributeAux, List.append_nil]
    exact List.Perm.refl bins.flatten
  | cons it rest ih =>
    intro bins loads hlen hne
    simp only [distributeAux]
    have hw : argmin loads < bins.length := hlen ▸ argmin_lt hne
    have hstep := flatten_set_append bins (argmin loads) it hw
    have hne' : loads.set (argmin loads) (loads.getD (argmin loads) 0 + it.bytes) ≠ [] := by
      intro hc
      apply hne
      apply List.length_eq_zero.mp
      rw [← List.length_set loads (argmin loads) (loads.getD (argmin loads) 0 + it.bytes), hc]
      rfl
    have hrec := ih (bins.set (argmin loads) (bins.getD (argmin loads) [] ++ [it]))
      (loads.set (argmin loads) (loads.getD (argmin loads) 0 + it.bytes))
      (by rw [List.length_set, List.length_set]; exact hlen)
      hne'
    have heq : bins.flatten ++ [it] ++ rest = bins.flatten ++ it :: rest := by
      rw [List.append_assoc]
      rfl
    exact hrec.trans (heq ▸ List.Perm.append_right rest hstep)

lemma flatten_replicate_nil {α : Type} : ∀ (n : Nat),
    (List.replicate n ([] : List α)).flatten = [] := by
  intro n
  induction n with
  | zero => rfl
  | succ m ih => simp only [List.replicate_succ, List.flatten_cons, List.nil_append]; exact ih

lemma partBytes_append_one (l : List SyncItem) (it : SyncItem) :
    partBytes (l ++ [it]) = partBytes l + it.bytes := by
  simp [partBytes]

/-- The tracked loads stay equal, index by index, to the byte sums of the
bins. -/
lemma distributeAux_loads_sums : ∀ (items : List SyncItem)
    (bins : List (List SyncItem)) (loads : List Nat),
    bins.length = loads.length →
    (∀ i, loads.getD i 0 = partBytes (bins.getD i [])) →
    ∀ i, (distributeAux items bins loads).2.getD i 0 =
      partBytes ((distributeAux items bins loads).1.getD i []) := by
  intro items
  induction items with
  | nil => intro bins loads _ h i; exact h i
  | cons it rest ih =>
    intro bins loads hlen h
    simp only [distributeAux]
    cases hL : loads with
    | nil =>
      subst hL
      have hb : bins = [] := List.length_eq_zero.mp (by simpa using hlen)
      subst hb
      exact ih [] [] rfl (fun i => by cases i <;> rfl)
    | cons l0 lt =>
      rw [← hL]
      have hne : loads ≠ [] := by rw [hL]; exact List.cons_ne_nil l0 lt
      have hw : argmin loads < loads.length := argmin_lt hne
      apply ih
      · rw [List.length_set, List.length_set]; exact hlen
      · intro i
        by_cases he : i = argmin loads
        · rw [he,
            getD_set_self loads (argmin loads) (loads.getD (argmin loads) 0 + it.bytes) 0 hw,
            getD_set_self bins (argmin loads) (bins.getD (argmin loads) [] ++ [it]) []
              (by rw [hlen]; exact hw),
            partBytes_append_one, h (argmin loads)]
        · rw [getD_set_ne loads (argmin loads) i (loads.getD (argmin loads) 0 + it.bytes) 0
              (fun hc => he hc.symm),
            getD_set_ne bins (argmin loads) i (bins.getD (argmin loads) [] ++ [it]) []
              (fun hc => he hc.symm)]
          exact h i

/-- Two lists of naturals with equal lengths and pointwise equal `getD`
entries are equal. -/
lemma eq_of_getD_eq : ∀ (l1 l2 : List Nat), l1.length = l2.length →
    (∀ i, l1.getD i 0 = l2.getD i 0) → l1 = l2
  | [], [], _, _ => rfl
  | [], b :: t, h, _ => by simp at h
  | a :: t, [], h, _ => by simp at h
  | a :: t, b :: u, h, hp => by
    have h0 := hp 0
    have ht := eq_of_getD_eq t u (by simpa using h) (fun i => hp (i + 1))
    simp only [List.getD_cons_zero] at h0
    rw [h0, ht]

/-- The greedy loop never widens the spread of the loads beyond the
largest item. -/
lemma distributeAux_maxmin : ∀ (items : List SyncItem)
    (bins : List (List SyncItem)) (loads : List Nat) (B : Nat),
    loads ≠ [] →
    (∀ it ∈ items, it.bytes ≤ B) →
    listMax loads - listMin loads ≤ B →
    listMax (distributeAux items bins loads).2 -
      listMin (distributeAux items bins loads).2 ≤ B := by
  intro items
  induction items with
  | nil => intro bins loads B _ _ h; exact h
  | cons it rest ih =>
    intro bins loads B hne hb hd
    simp only [distributeAux]
    have hble : it.bytes ≤ B := hb it (List.mem_cons_self it rest)
    have hw : argmin loads < loads.length := argmin_lt hne
    have hgd : loads.getD (argmin loads) 0 = listMin loads := getD_argmin hne
    apply ih
    · intro hc
      apply hne
      apply List.length_eq_zero.mp
      rw [← List.length_set loads (argmin loads) (loads.getD (argmin loads) 0 + it.bytes), hc]
      rfl
    · exact fun x hx => hb x (List.mem_cons_of_mem it hx)
    · rw [hgd]
      have hmax := listMax_set_le loads (argmin loads) (listMin loads + it.bytes)
      have hmin := le_listMin_set loads (argmin loads) (listMin loads + it.bytes)
      have hml : listMin loads ≤ listMax loads := listMin_le_listMax hne
      omega

/-- The source's first-minimum index agrees with the assignment rule as the
spec words it. -/
lemma argmin_eq_spec : ∀ (l : List Nat), argmin l = firstMinIndexSpec l := by
  intro l
  induction l with
  | nil => rfl
  | cons a t ih =>
    cases t with
    | nil =>
      simp [argmin, firstMinIndexSpec, listMin, List.range_succ, List.find?]
    | cons b u =>
      by_cases hle : a ≤ listMin (b :: u)
      · rw [argmin_cons (List.cons_ne_nil b u), if_pos hle]
        have hmin : listMin (a :: b :: u) = a := by
          simp [listMin, Nat.min_eq_left hle]
        rw [firstMinIndexSpec]
        rw [show (a :: b :: u).length = (b :: u).length + 1 from rfl,
          List.range_succ_eq_map]
        rw [List.find?_cons_of_pos _ (by simp [hmin])]
        rfl
      · rw [argmin_cons (List.cons_ne_nil b u), if_neg hle]
        have hmlt : listMin (b :: u) < a := Nat.lt_of_not_le hle
        have hmin : listMin (a :: b :: u) = listMin (b :: u) := by
          simp [listMin, Nat.min_eq_right (le_of_lt hmlt)]
        have hsome : ∃ j, (List.range (b :: u).length).find?
            (fun i => (b :: u).getD i 0 == listMin (b :: u)) = some j := by
          cases hfs : (List.range (b :: u).length).find?
              (fun i => (b :: u).getD i 0 == listMin (b :: u)) with
          | none =>
            exfalso
            have hall := List.find?_eq_none.mp hfs (argmin (b :: u))
              (List.mem_range.mpr (argmin_lt (List.cons_ne_nil b u)))
            rw [getD_argmin (List.cons_ne_nil b u)] at hall
            simp at hall
          | some j => exact ⟨j, rfl⟩
        obtain ⟨j, hj⟩ := hsome
        have hspec_t : firstMinIndexSpec (b :: u) = j := by
          rw [firstMinIndexSpec, hj]
          rfl
        rw [firstMinIndexSpec]
        rw [show (a :: b :: u).length = (b :: u).length + 1 from rfl,
          List.range_succ_eq_map]
        rw [List.find?_cons_of_neg _ (by
          simp only [List.getD_cons_zero, hmin, beq_iff_eq]
          omega)]
        rw [List.find?_map]
        have hcomp : ((fun i => (a :: b :: u).getD i 0 == listMin (a :: b :: u)) ∘ Nat.succ) =
            (fun i => (b :: u).getD i 0 == listMin (b :: u)) := by
          funext i
          simp [hmin]
        rw [hcomp, hj]
        rw [ih, hspec_t]
        rfl

/-- The source's loop coincides with the spec-worded loop. -/
lemma distributeAux_eq_spec : ∀ (items : List SyncItem)
    (bins : List (List SyncItem)) (loads : List Nat),
    distributeAux items bins loads = distributeSpecAux items bins loads := by
  intro items
  induction items with
  | nil => intro bins loads; rfl
  | cons it rest ih =>
    intro bins loads
    simp only [distributeAux, distributeSpecAux, ← argmin_eq_spec]
    exact ih _ _

lemma listMax_replicate_zero : ∀ (n : Nat), listMax (List.replicate n 0) = 0 := by
  intro n
  induction n with
  | zero => rfl
  | succ m ih => simp [List.replicate_succ, listMax, ih]

lemma getD_map {α β : Type} (f : α → β) : ∀ (l : List α) (i : Nat) (d : α),
    (l.map f).getD i (f d) = f (l.getD i d)
  | [], _, _ => rfl
  | a :: t, 0, d => rfl
  | a :: t, n + 1, d => by
    simp only [List.map_cons, List.getD_cons_succ]
    exact getD_map f t n d

/-- C8, confirmed: for a worker count of at least 1 the distributor returns
exactly N partitions, their concatenation is a permutation of the input
item list (the multiset-union and no-loss half of the claim), distinct
items end up in pairwise disjoint partitions, the spread between the
largest and smallest partition byte load is at most the largest single
item, and the loop coincides with the spec-worded rule "assign to the bin
with minimum load, ties broken by lowest index". -/
theorem c8_distribute (items : List SyncItem) (N : Nat) (hN : 1 ≤ N) :
    (distribute_items items N).length = N ∧
    ((distribute_items items N).flatten).Perm items ∧
    (items.Nodup → (distribute_items items N).Pairwise List.Disjoint) ∧
    listMax ((distribute_items items N).map partBytes) -
      listMin ((distribute_items items N).map partBytes) ≤
      listMax (items.map (·.bytes)) ∧
    distribute_items items N = distributeSpec items N := by
  by_cases hitems : items = []
  · subst hitems
    have hflat : (distribute_items [] N).flatten = [] := by
      rw [distribute_items, if_pos rfl]
      exact flatten_replicate_nil N
    refine ⟨?_, ?_, ?_, ?_, ?_⟩
    · rw [distribute_items, if_pos rfl, List.length_replicate]
    · rw [hflat]
    · intro _
      rw [distribute_items, if_pos rfl]
      have hnd : (List.replicate N ([] : List SyncItem)).flatten.Nodup := by
        rw [flatten_replicate_nil N]
        exact List.nodup_nil
      exact (List.nodup_flatten.mp hnd).2
    · rw [distribute_items, if_pos rfl, List.map_replicate]
      have : partBytes [] = 0 := rfl
      rw [this, listMax_replicate_zero]
      omega
    · rw [distribute_items, distributeSpec, if_pos rfl, if_pos rfl]
  · have hlrep : (List.replicate N ([] : List SyncItem)).length =
        (List.replicate N (0 : Nat)).length := by simp
    have hlne : (List.replicate N (0 : Nat)) ≠ [] := by
      intro hc
      have := congrArg List.length hc
      simp at this
      omega
    have hsums0 : ∀ i, (List.replicate N (0 : Nat)).getD i 0 =
        partBytes ((List.replicate N ([] : List SyncItem)).getD i []) := by
      intro i
      rw [getD_replicate_self, getD_replicate_self]
      rfl
    have hparts : distribute_items items N =
        (distributeAux items (List.replicate N []) (List.replicate N 0)).1 := by
      rw [distribute_items, if_neg hitems]
    have hperm : ((distribute_items items N).flatten).Perm items := by
      rw [hparts]
      have := distributeAux_flatten_perm items (List.replicate N [])
        (List.replicate N 0) hlrep hlne
      rwa [flatten_replicate_nil, List.nil_append] at this
    refine ⟨?_, hperm, ?_, ?_, ?_⟩
    · rw [hparts, (distributeAux_lengths items _ _).1, List.length_replicate]
    · intro hnd
      have hfn : ((distribute_items items N).flatten).Nodup :=
        (hperm.nodup_iff).mpr hnd
      exact (List.nodup_flatten.mp hfn).2
    · have hmapeq : (distribute_items items N).map partBytes =
          (distributeAux items (List.replicate N []) (List.replicate N 0)).2 := by
        apply eq_of_getD_eq
        · rw [List.length_map, hparts, (distributeAux_lengths items _ _).1,
            (distributeAux_lengths items _ _).2, List.length_replicate,
            List.length_replicate]
        · intro i
          have h1 : ((distribute_items items N).map partBytes).getD i 0 =
              partBytes ((distribute_items items N).getD i []) :=
            getD_map partBytes (distribute_items items N) i []
          rw [h1, hparts]
          exact (distributeAux_loads_sums items _ _ hlrep hsums0 i).symm
      rw [hmapeq]
      apply distributeAux_maxmin items _ _ _ hlne
      · intro it hit
        exact le_listMax (List.mem_map_of_mem (·.bytes) hit)
      · rw [listMax_replicate_zero]
        omega
    · rw [distribute_items, distributeSpec, if_neg hitems, if_neg hitems,
        distributeAux_eq_spec]

/-- C8 witness: the theorem at the spec's scenario S2 (sizes 9, 8, 5, 4,
2, 2 over three workers). -/
theorem c8_witness :
    (distribute_items s2Items 3).length = 3 ∧
    ((distribute_items s2Items 3).flatten).Perm s2Items ∧
    (distribute_items s2Items 3).Pairwise List.Disjoint ∧
    listMax ((distribute_items s2Items 3).map partBytes) -
      listMin ((distribute_items s2Items 3).map partBytes) ≤
      listMax (s2Items.map (·.bytes)) ∧
    distribute_items s2Items 3 = distributeSpec s2Items 3 := by
  obtain ⟨h1, h2, h3, h4, h5⟩ := c8_distribute s2Items 3 (by decide)
  exact ⟨h1, h2, h3 (by decide), h4, h5⟩

/-! ### C1 and C3: worker-slot accounting and snapshot invariants -/

lemma updSlot_length : ∀ (ws : List WorkerProg) (i : Nat) (g : WorkerProg → WorkerProg),
    (updSlot ws i g).length = ws.length
  | [], _, _ => rfl
  | _ :: t, 0, _ => rfl
  | w :: t, n + 1, g => by simp [updSlot, updSlot_length t n g]

lemma slotFiles_upd_val : ∀ (ws : List WorkerProg) (i : Nat) (f b : Nat),
    i < ws.length →
    slotFiles (updSlot ws i
      (fun w => { w with filesTransferred := f, bytesTransferred := b })) i = f
  | [], _, _, _, h => by simp at h
  | w :: t, 0, _, _, _ => rfl
  | w :: t, n + 1, f, b, h =>
    slotFiles_upd_val t n f b (by simpa using h)

lemma slotBytes_upd_val : ∀ (ws : List WorkerProg) (i : Nat) (f b : Nat),
    i < ws.length →
    slotBytes (updSlot ws i
      (fun w => { w with filesTransferred := f, bytesTransferred := b })) i = b
  | [], _, _, _, h => by simp at h
  | w :: t, 0, _, _, _ => rfl
  | w :: t, n + 1, f, b, h =>
    slotBytes_upd_val t n f b (by simpa using h)

lemma slotFiles_upd_ne : ∀ (ws : List WorkerProg) (i j : Nat)
    (g : WorkerProg → WorkerProg), i ≠ j →
    slotFiles (updSlot ws i g) j = slotFiles ws j
  | [], _, _, _, _ => rfl
  | w :: t, 0, 0, g, h => absurd rfl h
  | w :: t, 0, m + 1, g, _ => rfl
  | w :: t, n + 1, 0, g, _ => rfl
  | w :: t, n + 1, m + 1, g, h =>
    slotFiles_upd_ne t n m g (by omega)

lemma slotBytes_upd_ne : ∀ (ws : List WorkerProg) (i j : Nat)
    (g : WorkerProg → WorkerProg), i ≠ j →
    slotBytes (updSlot ws i g) j = slotBytes ws j
  | [], _, _, _, _ => rfl
  | w :: t, 0, 0, g, h => absurd rfl h
  | w :: t, 0, m + 1, g, _ => rfl
  | w :: t, n + 1, 0, g, _ => rfl
  | w :: t, n + 1, m + 1, g, h =>
    slotBytes_upd_ne t n m g (by omega)

lemma sumFiles_upd_val : ∀ (ws : List WorkerProg) (i : Nat) (f b : Nat),
    i < ws.length →
    sumWorkerFiles (updSlot ws i
      (fun w => { w with filesTransferred := f, bytesTransferred := b })) +
      slotFiles ws i = sumWorkerFiles ws + f
  | [], _, _, _, h => by simp at h
  | w :: t, 0, f, b, _ => by
    simp only [updSlot, sumWorkerFiles, List.map_cons, List.sum_cons, slotFiles]
    omega
  | w :: t, n + 1, f, b, h => by
    have := sumFiles_upd_val t n f b (by simpa using h)
    simp only [updSlot, sumWorkerFiles, List.map_cons, List.sum_cons, slotFiles] at *
    omega

lemma sumBytes_upd_val : ∀ (ws : List WorkerProg) (i : Nat) (f b : Nat),
    i < ws.length →
    sumWorkerBytes (updSlot ws i
      (fun w => { w with filesTransferred := f, bytesTransferred := b })) +
      slotBytes ws i = sumWorkerBytes ws + b
  | [], _, _, _, h => by simp at h
  | w :: t, 0, f, b, _ => by
    simp only [updSlot, sumWorkerBytes, List.map_cons, List.sum_cons, slotBytes]
    omega
  | w :: t, n + 1, f, b, h => by
    have := sumBytes_upd_val t n f b (by simpa using h)
    simp only [updSlot, sumWorkerBytes, List.map_cons, List.sum_cons, slotBytes] at *
    omega

/-- A slot update that does not touch the transfer counters leaves every
slot projection and both sums unchanged. -/
lemma slots_upd_pres : ∀ (ws : List WorkerProg) (i : Nat)
    (g : WorkerProg → WorkerProg),
    (∀ w, (g w).filesTransferred = w.filesTransferred) →
    (∀ w, (g w).bytesTransferred = w.bytesTransferred) →
    sumWorkerFiles (updSlot ws i g) = sumWorkerFiles ws ∧
    sumWorkerBytes (updSlot ws i g) = sumWorkerBytes ws ∧
    (∀ j, slotFiles (updSlot ws i g) j = slotFiles ws j ∧
      slotBytes (updSlot ws i g) j = slotBytes ws j)
  | [], _, _, _, _ => ⟨rfl, rfl, fun _ => ⟨rfl, rfl⟩⟩
  | w :: t, 0, g, hf, hb => by
    refine ⟨?_, ?_, ?_⟩
    · simp [updSlot, sumWorkerFiles, hf w]
    · simp [updSlot, sumWorkerBytes, hb w]
    · intro j
      cases j with
      | zero => exact ⟨hf w, hb w⟩
      | succ m => exact ⟨rfl, rfl⟩
  | w :: t, n + 1, g, hf, hb => by
    obtain ⟨h1, h2, h3⟩ := slots_upd_pres t n g hf hb
    refine ⟨?_, ?_, ?_⟩
    · show w.filesTransferred + sumWorkerFiles (updSlot t n g) =
        w.filesTransferred + sumWorkerFiles t
      rw [h1]
    · show w.bytesTransferred + sumWorkerBytes (updSlot t n g) =
        w.bytesTransferred + sumWorkerBytes t
      rw [h2]
    · intro j
      cases j with
      | zero => exact ⟨rfl, rfl⟩
      | succ m => exact h3 m

lemma stepProg_bytesTotal (wid f b : Nat) (prog : Prog) :
    (stepProg wid f b prog).bytesTotal = prog.bytesTotal := rfl

lemma stepProg_filesTotal (wid f b : Nat) (prog : Prog) :
    (stepProg wid f b prog).filesTotal = prog.filesTotal := rfl

lemma stepProg_workers (wid f b : Nat) (prog : Prog) :
    (stepProg wid f b prog).workers = updSlot prog.workers wid
      (fun w => { w with filesTransferred := f, bytesTransferred := b }) := rfl

/-- The snapshot taken right after an item-completion update satisfies the
percentage formula (given the zero-total invariant on entry). -/
lemma percentOk_stepProg (wid f b : Nat) (prog : Prog)
    (hinv : prog.bytesTotal = 0 → prog.percentComplete = 0) :
    percentOk (stepProg wid f b prog) = true := by
  by_cases h : 0 < prog.bytesTotal
  · simp only [percentOk, stepProg, stepProg_bytesTotal, if_pos h, decide_eq_true_eq]
  · have h0 : prog.bytesTotal = 0 := by omega
    simp only [percentOk, stepProg, h0, if_neg h]
    simp [hinv h0]

/-- The zero-total invariant survives an item-completion update. -/
lemma stepProg_inv (wid f b : Nat) (prog : Prog)
    (hinv : prog.bytesTotal = 0 → prog.percentComplete = 0) :
    (stepProg wid f b prog).bytesTotal = 0 →
    (stepProg wid f b prog).percentComplete = 0 := by
  intro h0
  rw [stepProg_bytesTotal] at h0
  simp only [stepProg, if_neg (by omega : ¬ 0 < prog.bytesTotal)]
  exact hinv h0

/-- Full accounting of the per-item worker loop: the worker slot tracks the
returned accumulators, other slots are untouched, the aggregate sums move
by exactly the returned amounts, the totals are preserved, and every
published snapshot satisfies the percentage formula. -/
lemma runWorkerItems_spec (exec : String → Int) (wid : Nat) :
    ∀ (its : List SyncItem) (fd bd : Nat) (errs : List String) (prog : Prog)
      (fdo bdo : Nat) (erro : List String) (pr : Prog) (snaps : List Prog),
    runWorkerItems exec wid its fd bd errs prog = ((fdo, bdo, erro), pr, snaps) →
    wid < prog.workers.length →
    slotFiles prog.workers wid = fd →
    slotBytes prog.workers wid = bd →
    pr.workers.length = prog.workers.length ∧
    slotFiles pr.workers wid = fdo ∧
    slotBytes pr.workers wid = bdo ∧
    (∀ j, j ≠ wid → slotFiles pr.workers j = slotFiles prog.workers j ∧
      slotBytes pr.workers j = slotBytes prog.workers j) ∧
    sumWorkerFiles pr.workers + fd = sumWorkerFiles prog.workers + fdo ∧
    sumWorkerBytes pr.workers + bd = sumWorkerBytes prog.workers + bdo ∧
    pr.bytesTotal = prog.bytesTotal ∧
    ((prog.bytesTotal = 0 → prog.percentComplete = 0) →
      (snaps.all percentOk = true ∧
       (pr.bytesTotal = 0 → pr.percentComplete = 0))) := by
  intro its
  induction its with
  | nil =>
    intro fd bd errs prog fdo bdo erro pr snaps heq hw hf hb
    simp only [runWorkerItems, Prod.mk.injEq] at heq
    obtain ⟨⟨e1, e2, _⟩, e4, e5⟩ := heq
    subst e1; subst e2; subst e4; subst e5
    exact ⟨rfl, hf, hb, fun j _ => ⟨rfl, rfl⟩, by omega, by omega, rfl,
      fun hinv => ⟨rfl, hinv⟩⟩
  | cons it rest ih =>
    intro fd bd errs prog fdo bdo erro pr snaps heq hw hf hb
    simp only [runWorkerItems] at heq
    by_cases h0 : exec it.name = 0
    · rw [if_pos h0] at heq
      rcases hrec : runWorkerItems exec wid rest (fd + it.files) (bd + it.bytes) errs
          (stepProg wid (fd + it.files) (bd + it.bytes) prog) with ⟨⟨fdo', bdo', erro'⟩, pr', snaps'⟩
      rw [hrec] at heq
      simp only [Prod.mk.injEq] at heq
      obtain ⟨⟨e1, e2, _⟩, e4, e5⟩ := heq
      rw [← e1, ← e2, ← e4, ← e5]
      have hw' : wid < (stepProg wid (fd + it.files) (bd + it.bytes) prog).workers.length := by
        rw [stepProg_workers, updSlot_length]
        exact hw
      have hf' : slotFiles (stepProg wid (fd + it.files) (bd + it.bytes) prog).workers wid =
          fd + it.files := by
        rw [stepProg_workers]
        exact slotFiles_upd_val prog.workers wid _ _ hw
      have hb' : slotBytes (stepProg wid (fd + it.files) (bd + it.bytes) prog).workers wid =
          bd + it.bytes := by
        rw [stepProg_workers]
        exact slotBytes_upd_val prog.workers wid _ _ hw
      obtain ⟨k1, k2, k3, k4, k5, k6, k7, k8⟩ := ih (fd + it.files) (bd + it.bytes) errs
        (stepProg wid (fd + it.files) (bd + it.bytes) prog) fdo' bdo' erro' pr' snaps'
        hrec hw' hf' hb'
      have hsf := sumFiles_upd_val prog.workers wid (fd + it.files) (bd + it.bytes) hw
      have hsb := sumBytes_upd_val prog.workers wid (fd + it.files) (bd + it.bytes) hw
      rw [hf] at hsf
      rw [hb] at hsb
      rw [stepProg_workers] at k1 k5 k6
      refine ⟨by rw [k1, updSlot_length], k2, k3, ?_, by omega, by omega,
        by rw [k7]; rfl, ?_⟩
      · intro j hj
        obtain ⟨kf, kb⟩ := k4 j hj
        rw [stepProg_workers] at kf kb
        rw [kf, kb, slotFiles_upd_ne prog.workers wid j _ (fun hc => hj hc.symm),
          slotBytes_upd_ne prog.workers wid j _ (fun hc => hj hc.symm)]
        exact ⟨rfl, rfl⟩
      · intro hinv
        have hinv' := stepProg_inv wid (fd + it.files) (bd + it.bytes) prog hinv
        obtain ⟨ka, kb⟩ := k8 hinv'
        refine ⟨?_, by rw [k7, stepProg_bytesTotal] at kb ⊢; exact fun hz => kb hz⟩
        simp only [List.all_cons, ka, percentOk_stepProg wid _ _ prog hinv, Bool.and_self]
    · rw [if_neg h0] at heq
      by_cases h15 : exec it.name = -15
      · rw [if_pos h15] at heq
        exact ih fd bd errs prog fdo bdo erro pr snaps heq hw hf hb
      · rw [if_neg h15] at heq
        exact ih fd bd (errs ++ [syncErrorMsg wid it.name]) prog fdo bdo erro pr snaps
          heq hw hf hb

/-- `runWorker` accounting: the per-worker result adds exactly to the
aggregate sums, other slots are untouched, totals are preserved, and the
published snapshots satisfy the percentage formula. -/
lemma runWorker_spec (exec : String → Int) (wid : Nat) (its : List SyncItem)
    (prog : Prog) (fdo bdo : Nat) (erro : List String) (pr : Prog)
    (snaps : List Prog)
    (heq : runWorker exec wid its prog = ((fdo, bdo, erro), pr, snaps))
    (hw : wid < prog.workers.length)
    (hf : slotFiles prog.workers wid = 0)
    (hb : slotBytes prog.workers wid = 0) :
    pr.workers.length = prog.workers.length ∧
    (∀ j, j ≠ wid → slotFiles pr.workers j = slotFiles prog.workers j ∧
      slotBytes pr.workers j = slotBytes prog.workers j) ∧
    sumWorkerFiles pr.workers = sumWorkerFiles prog.workers + fdo ∧
    sumWorkerBytes pr.workers = sumWorkerBytes prog.workers + bdo ∧
    pr.bytesTotal = prog.bytesTotal ∧
    ((prog.bytesTotal = 0 → prog.percentComplete = 0) →
      (snaps.all percentOk = true ∧
       (pr.bytesTotal = 0 → pr.percentComplete = 0))) := by
  simp only [runWorker] at heq
  obtain ⟨pres0f, pres0b, pres0s⟩ := slots_upd_pres prog.workers wid
    (fun w => { w with status := WStatus.running }) (fun _ => rfl) (fun _ => rfl)
  rcases hr : runWorkerItems exec wid its 0 0 [] (workerStart wid prog)
      with ⟨⟨fdo', bdo', erro'⟩, pr', snaps'⟩
  rw [hr] at heq
  simp only [Prod.mk.injEq] at heq
  obtain ⟨⟨e1, e2, e3⟩, e4, e5⟩ := heq
  rw [← e1, ← e2, ← e4, ← e5]
  have hws : (workerStart wid prog).workers =
      updSlot prog.workers wid (fun w => { w with status := WStatus.running }) := rfl
  have hw0 : wid < (workerStart wid prog).workers.length := by
    rw [hws, updSlot_length]; exact hw
  obtain ⟨k1, k2, k3, k4, k5, k6, k7, k8⟩ := runWorkerItems_spec exec wid its 0 0 []
    (workerStart wid prog) fdo' bdo' erro' pr' snaps' hr hw0
    (by rw [hws, (pres0s wid).1, hf])
    (by rw [hws, (pres0s wid).2, hb])
  rw [hws] at k1 k4 k5 k6
  have hfinw : (workerFinish wid erro' pr').workers = updSlot pr'.workers wid
      (fun w => { w with
        status := if erro' = [] then WStatus.completed else WStatus.failed }) := rfl
  obtain ⟨presFf, presFb, presFs⟩ := slots_upd_pres pr'.workers wid
    (fun w => { w with status := if erro' = [] then WStatus.completed else WStatus.failed })
    (fun _ => rfl) (fun _ => rfl)
  refine ⟨?_, ?_, ?_, ?_, ?_, ?_⟩
  · rw [hfinw, updSlot_length, k1, updSlot_length]
  · intro j hj
    constructor
    · rw [hfinw, (presFs j).1, (k4 j hj).1, (pres0s j).1]
    · rw [hfinw, (presFs j).2, (k4 j hj).2, (pres0s j).2]
  · rw [hfinw, presFf]
    rw [pres0f] at k5
    omega
  · rw [hfinw, presFb]
    rw [pres0b] at k6
    omega
  · show (workerFinish wid erro' pr').bytesTotal = prog.bytesTotal
    rw [show (workerFinish wid erro' pr').bytesTotal = pr'.bytesTotal from rfl, k7]
    rfl
  · intro hinv
    have hinv0 : (workerStart wid prog).bytesTotal = 0 →
        (workerStart wid prog).percentComplete = 0 := hinv
    obtain ⟨ka, kb⟩ := k8 hinv0
    refine ⟨ka, ?_⟩
    show (workerFinish wid erro' pr').bytesTotal = 0 →
      (workerFinish wid erro' pr').percentComplete = 0
    rw [show (workerFinish wid erro' pr').bytesTotal = pr'.bytesTotal from rfl,
      show (workerFinish wid erro' pr').percentComplete = pr'.percentComplete from rfl]
    exact kb

/-- Sequential execution of all workers: the final aggregate sums are the
initial sums plus the workers' returned totals, totals are preserved, and
every snapshot published along the way satisfies the percentage formula. -/
lemma runWorkersSeq_spec (exec : String → Int) :
    ∀ (parts : List (List SyncItem)) (wid : Nat) (prog : Prog)
      (results : List (Nat × Nat × List String)) (pr : Prog) (snaps : List Prog),
    runWorkersSeq exec parts wid prog = (results, pr, snaps) →
    prog.workers.length = wid + parts.length →
    (∀ i, wid ≤ i → slotFiles prog.workers i = 0 ∧ slotBytes prog.workers i = 0) →
    pr.workers.length = prog.workers.length ∧
    sumWorkerFiles pr.workers = sumWorkerFiles prog.workers + (results.map (·.1)).sum ∧
    sumWorkerBytes pr.workers = sumWorkerBytes prog.workers + (results.map (·.2.1)).sum ∧
    pr.bytesTotal = prog.bytesTotal ∧
    ((prog.bytesTotal = 0 → prog.percentComplete = 0) →
      snaps.all percentOk = true) := by
  intro parts
  induction parts with
  | nil =>
    intro wid prog results pr snaps heq _ _
    simp only [runWorkersSeq, Prod.mk.injEq] at heq
    obtain ⟨e1, e2, e3⟩ := heq
    rw [← e1, ← e2, ← e3]
    exact ⟨rfl, by simp, by simp, rfl, fun _ => rfl⟩
  | cons its rest ih =>
    intro wid prog results pr snaps heq hlen hz
    simp only [runWorkersSeq] at heq
    rcases hw1 : runWorker exec wid its prog with ⟨⟨f1, b1, e1r⟩, p1, s1⟩
    rcases hw2 : runWorkersSeq exec rest (wid + 1) p1 with ⟨res2, p2, s2⟩
    rw [hw1, hw2] at heq
    simp only [Prod.mk.injEq] at heq
    obtain ⟨e1, e2, e3⟩ := heq
    rw [← e1, ← e2, ← e3]
    have hwlt : wid < prog.workers.length := by
      rw [hlen]
      simp only [List.length_cons]
      omega
    obtain ⟨hzf, hzb⟩ := hz wid (le_refl wid)
    obtain ⟨m1, m2, m3, m4, m5, m6⟩ :=
      runWorker_spec exec wid its prog f1 b1 e1r p1 s1 hw1 hwlt hzf hzb
    have hlen1 : p1.workers.length = (wid + 1) + rest.length := by
      rw [m1, hlen]
      simp only [List.length_cons]
      omega
    have hz1 : ∀ i, wid + 1 ≤ i →
        slotFiles p1.workers i = 0 ∧ slotBytes p1.workers i = 0 := by
      intro i hi
      obtain ⟨pf, pb⟩ := m2 i (by omega)
      obtain ⟨qf, qb⟩ := hz i (by omega)
      exact ⟨by rw [pf, qf], by rw [pb, qb]⟩
    obtain ⟨n1, n2, n3, n4, n5⟩ := ih (wid + 1) p1 res2 p2 s2 hw2 hlen1 hz1
    refine ⟨by rw [n1, m1], ?_, ?_, by rw [n4, m5], ?_⟩
    · simp only [List.map_cons, List.sum_cons]
      rw [n2, m3]
      omega
    · simp only [List.map_cons, List.sum_cons]
      rw [n3, m4]
      omega
    · intro hinv
      obtain ⟨s1ok, p1inv⟩ := m6 hinv
      have s2ok := n5 p1inv
      rw [List.all_append, s1ok, s2ok]
      rfl

lemma initWorkers_counters {workerItems : List (List SyncItem)} {k : Nat} :
    ∀ w ∈ initWorkers workerItems k,
      w.filesTransferred = 0 ∧ w.bytesTransferred = 0 := by
  intro w hw
  simp only [initWorkers, List.mem_map] at hw
  obtain ⟨i, _, rfl⟩ := hw
  exact ⟨rfl, rfl⟩

lemma slots_zero_of_counters_zero : ∀ (l : List WorkerProg),
    (∀ w ∈ l, w.filesTransferred = 0 ∧ w.bytesTransferred = 0) →
    ∀ i, slotFiles l i = 0 ∧ slotBytes l i = 0
  | [], _, i => by cases i <;> exact ⟨rfl, rfl⟩
  | w :: t, h, 0 => h w (List.mem_cons_self w t)
  | w :: t, h, n + 1 =>
    slots_zero_of_counters_zero t (fun x hx => h x (List.mem_cons_of_mem w hx)) n

lemma sums_zero_of_counters_zero (l : List WorkerProg)
    (h : ∀ w ∈ l, w.filesTransferred = 0 ∧ w.bytesTransferred = 0) :
    sumWorkerFiles l = 0 ∧ sumWorkerBytes l = 0 := by
  constructor
  · apply List.sum_eq_zero
    intro x hx
    simp only [List.mem_map] at hx
    obtain ⟨w, hw, rfl⟩ := hx
    exact (h w hw).1
  · apply List.sum_eq_zero
    intro x hx
    simp only [List.mem_map] at hx
    obtain ⟨w, hw, rfl⟩ := hx
    exact (h w hw).2

lemma initWorkers_length (workerItems : List (List SyncItem)) (k : Nat) :
    (initWorkers workerItems k).length = k := by
  simp [initWorkers]

lemma distribute_items_length (items : List SyncItem) (k : Nat) :
    (distribute_items items k).length = k := by
  rw [distribute_items]
  split_ifs
  · exact List.length_replicate k []
  · rw [(distributeAux_lengths items _ _).1, List.length_replicate]

lemma percentOk_initProg (items : List SyncItem) (ws : List WorkerProg) :
    percentOk (initProg items ws) = true := by
  simp only [percentOk, initProg]
  split_ifs
  · simp
  · simp

lemma finishProg_workers (allErrors : List String) (p : Prog) :
    (finishProg allErrors p).workers = p.workers := by
  rw [finishProg]
  split_ifs <;> rfl

/-- C1, corrected: the final stats equal the workers' summed transfers when
that sum is positive, and otherwise fall back to the scanned source totals
(so a zero-transfer run reports the full totals, not zero; see
`c1_counterexample`). -/
theorem c1_amended (exec : String → Int) (items : List SyncItem) (pj : Nat) :
    (run_sync exec items pj).stats.filesSynced =
      (if 0 < sumWorkerFiles (run_sync exec items pj).finalProg.workers
       then sumWorkerFiles (run_sync exec items pj).finalProg.workers
       else (items.map (·.files)).sum) ∧
    (run_sync exec items pj).stats.bytesTransferred =
      (if 0 < sumWorkerBytes (run_sync exec items pj).finalProg.workers
       then sumWorkerBytes (run_sync exec items pj).finalProg.workers
       else (items.map (·.bytes)).sum) := by
  simp only [run_sync]
  rcases hr : runWorkersSeq exec
      (distribute_items items (numWorkersOf items pj)) 0
      (initProg items (initWorkers
        (distribute_items items (numWorkersOf items pj)) (numWorkersOf items pj)))
      with ⟨results, pr, snaps⟩
  dsimp only
  have hinitw : (initProg items (initWorkers
      (distribute_items items (numWorkersOf items pj)) (numWorkersOf items pj))).workers =
      initWorkers (distribute_items items (numWorkersOf items pj)) (numWorkersOf items pj) := rfl
  obtain ⟨n1, n2, n3, n4, n5⟩ := runWorkersSeq_spec exec
    (distribute_items items (numWorkersOf items pj)) 0
    (initProg items (initWorkers
      (distribute_items items (numWorkersOf items pj)) (numWorkersOf items pj)))
    results pr snaps hr
    (by rw [hinitw, initWorkers_length, distribute_items_length, Nat.zero_add])
    (by
      intro i _
      rw [hinitw]
      exact slots_zero_of_counters_zero _ initWorkers_counters i)
  obtain ⟨hz1, hz2⟩ := sums_zero_of_counters_zero _
    (@initWorkers_counters (distribute_items items (numWorkersOf items pj))
      (numWorkersOf items pj))
  rw [hinitw] at n2 n3
  rw [hz1] at n2
  rw [hz2] at n3
  rw [finishProg_workers, n2, n3, Nat.zero_add, Nat.zero_add]
  exact ⟨rfl, rfl⟩

/-- C3, corrected: every snapshot published before the terminal one
satisfies the percentage formula (equal to bytes over total times 100 when
the total is positive, 0 when the total is 0), while the final snapshot of
a zero-error run sets the percentage to 100 unconditionally - which
violates the formula exactly when `bytes_total = 0`; see
`c3_counterexample`. -/
theorem c3_amended (exec : String → Int) (items : List SyncItem) (pj : Nat) :
    ((run_sync exec items pj).snapshots.dropLast).all percentOk = true ∧
    ((run_sync exec items pj).finalProg.status = JStatus.completed →
      (run_sync exec items pj).finalProg.percentComplete = 100) := by
  simp only [run_sync]
  rcases hr : runWorkersSeq exec
      (distribute_items items (numWorkersOf items pj)) 0
      (initProg items (initWorkers
        (distribute_items items (numWorkersOf items pj)) (numWorkersOf items pj)))
      with ⟨results, pr, snaps⟩
  dsimp only
  obtain ⟨n1, n2, n3, n4, n5⟩ := runWorkersSeq_spec exec
    (distribute_items items (numWorkersOf items pj)) 0
    (initProg items (initWorkers
      (distribute_items items (numWorkersOf items pj)) (numWorkersOf items pj)))
    results pr snaps hr
    (by rw [show (initProg items (initWorkers
        (distribute_items items (numWorkersOf items pj)) (numWorkersOf items pj))).workers =
        initWorkers (distribute_items items (numWorkersOf items pj)) (numWorkersOf items pj)
        from rfl, initWorkers_length, distribute_items_length, Nat.zero_add])
    (by
      intro i _
      exact slots_zero_of_counters_zero _ initWorkers_counters i)
  constructor
  · rw [show (initProg items (initWorkers
        (distribute_items items (numWorkersOf items pj)) (numWorkersOf items pj)) ::
        snaps) ++ [finishProg ((results.map (·.2.2)).flatten) pr] =
        (initProg items (initWorkers
          (distribute_items items (numWorkersOf items pj)) (numWorkersOf items pj)) ::
          snaps) ++ [finishProg ((results.map (·.2.2)).flatten) pr] from rfl]
    rw [List.dropLast_concat]
    rw [List.all_cons]
    rw [percentOk_initProg items _]
    rw [n5 (fun _ => rfl)]
    rfl
  · intro hst
    rw [finishProg] at hst ⊢
    split_ifs at hst ⊢
    rfl

/-- C3 witness: the amended theorem at the empty-source run, where the
percentage hypothesis of the terminal clause is discharged concretely. -/
theorem c3_witness :
    ((run_sync (fun _ => 0) ([] : List SyncItem) 4).snapshots.dropLast).all percentOk = true ∧
    (run_sync (fun _ => 0) ([] : List SyncItem) 4).finalProg.percentComplete = 100 :=
  ⟨(c3_amended (fun _ => 0) ([] : List SyncItem) 4).1,
   (c3_amended (fun _ => 0) ([] : List SyncItem) 4).2 (by decide)⟩

/-! ### C4: rename_file -/

/-- Dict write through the association-list embedding: looking up the
written key returns the new value exactly when the key was present. -/
lemma lookup_assoc_update {α : Type} : ∀ (l : List (String × α)) (k : String) (v : α),
    ((l.map (fun q => if q.1 == k then (q.1, v) else q)).find?
      (fun q => q.1 == k)).map (·.2) =
    Option.map (fun _ => v) ((l.find? (fun q => q.1 == k)).map (·.2))
  | [], _, _ => rfl
  | p :: t, k, v => by
    by_cases h : (p.1 == k) = true
    · rw [List.map_cons, if_pos h]
      simp only [List.find?_cons, h]
      rfl
    · have hf : (p.1 == k) = false := by simpa using h
      rw [List.map_cons, if_neg h]
      simp only [List.find?_cons, hf]
      exact lookup_assoc_update t k v

lemma lookupIssue_setIssue (st : IssueStore) (issueId : String) (v : FnIssue) :
    lookupIssue (setIssue st issueId v) issueId =
      Option.map (fun _ => v) (lookupIssue st issueId) := by
  simp only [lookupIssue, setIssue]
  exact lookup_assoc_update st.issues issueId v

lemma lookupIssue_saveStore (st : IssueStore) (issueId : String) :
    lookupIssue (saveStore st) issueId = lookupIssue st issueId := rfl

/-- C4, corrected: success requires a pending stored issue, an effective
non-empty target different from the original, an absent target path and a
successful move, and then the renamed status with timestamp is stored and
persisted.  On failure the cause is attributed: the failed status is
stored and persisted only when every precondition held and the filesystem
move itself failed, while every precondition failure (unknown issue,
non-pending status, no effective target, empty target, target equal to
the original name, or an already-existing target path) leaves the store
unchanged with nothing persisted.  The claim's "whenever the operation
fails, the issue status becomes failed and is persisted" is refuted by
`c4_counterexample`. -/
theorem c4_amended (fs : RenameFsOracle) (st : IssueStore) (issueId : String)
    (newName : Option String) (now : Nat) :
    ((rename_file fs st issueId newName now).ok = true →
      ∃ i t, lookupIssue st issueId = some i ∧ i.status = IStatus.pending ∧
        effectiveTarget i newName = some t ∧ t ≠ "" ∧ t ≠ i.filename ∧
        fs.pathExists (joinPath (dirnamePath i.sourcePath.toList) t.toList) = false ∧
        fs.moveOk i.sourcePath.toList
          (joinPath (dirnamePath i.sourcePath.toList) t.toList) = true ∧
        (rename_file fs st issueId newName now).saved = true ∧
        lookupIssue (rename_file fs st issueId newName now).store issueId =
          some { i with status := IStatus.renamed, resolvedAt := some now }) ∧
    ((rename_file fs st issueId newName now).ok = false →
      ((rename_file fs st issueId newName now).saved = true ∧
        ∃ i t, lookupIssue st issueId = some i ∧ i.status = IStatus.pending ∧
          effectiveTarget i newName = some t ∧ t ≠ "" ∧ t ≠ i.filename ∧
          fs.pathExists (joinPath (dirnamePath i.sourcePath.toList) t.toList) = false ∧
          fs.moveOk i.sourcePath.toList
            (joinPath (dirnamePath i.sourcePath.toList) t.toList) = false ∧
          lookupIssue (rename_file fs st issueId newName now).store issueId =
            some { i with status := IStatus.failed }) ∨
      ((rename_file fs st issueId newName now).saved = false ∧
        (rename_file fs st issueId newName now).store = st ∧
        (lookupIssue st issueId = none ∨
          ∃ i, lookupIssue st issueId = some i ∧
            (i.status ≠ IStatus.pending ∨
              effectiveTarget i newName = none ∨
              effectiveTarget i newName = some "" ∨
              effectiveTarget i newName = some i.filename ∨
              ∃ t, effectiveTarget i newName = some t ∧
                fs.pathExists (joinPath (dirnamePath i.sourcePath.toList) t.toList) =
                  true)))) := by
  rcases hl : lookupIssue st issueId with _ | issue
  · have hR : rename_file fs st issueId newName now =
        ⟨false, "Issue not found", st, false⟩ := by
      simp [rename_file, hl]
    rw [hR]
    exact ⟨fun hok => absurd hok (by simp), fun _ => Or.inr ⟨rfl, rfl, Or.inl rfl⟩⟩
  · by_cases hp : issue.status = IStatus.pending
    · rcases ht : effectiveTarget issue newName with _ | target
      · have hR : rename_file fs st issueId newName now =
            ⟨false, "No target name provided or suggested", st, false⟩ := by
          simp [rename_file, hl, ht, hp]
        rw [hR]
        exact ⟨fun hok => absurd hok (by simp),
          fun _ => Or.inr ⟨rfl, rfl, Or.inr ⟨issue, rfl, Or.inr (Or.inl ht)⟩⟩⟩
      · by_cases hte : target = ""
        · have hR : rename_file fs st issueId newName now =
              ⟨false, "No target name provided or suggested", st, false⟩ := by
            simp [rename_file, hl, ht, hp, hte]
          rw [hR]
          exact ⟨fun hok => absurd hok (by simp),
            fun _ => Or.inr ⟨rfl, rfl, Or.inr ⟨issue, rfl,
              Or.inr (Or.inr (Or.inl (by rw [ht, hte])))⟩⟩⟩
        · by_cases htf : target = issue.filename
          · subst htf
            have hR : rename_file fs st issueId newName now =
                ⟨false, "New name is same as original", st, false⟩ := by
              simp [rename_file, hl, ht, hp, hte]
            rw [hR]
            exact ⟨fun hok => absurd hok (by simp),
              fun _ => Or.inr ⟨rfl, rfl, Or.inr ⟨issue, rfl,
                Or.inr (Or.inr (Or.inr (Or.inl ht)))⟩⟩⟩
          · by_cases hpe : fs.pathExists
                (joinPath (dirnamePath issue.sourcePath.data) target.data) = true
            · have hR : rename_file fs st issueId newName now =
                  ⟨false, "Target already exists", st, false⟩ := by
                simp [rename_file, hl, ht, hp, hte, htf, hpe]
              rw [hR]
              exact ⟨fun hok => absurd hok (by simp),
                fun _ => Or.inr ⟨rfl, rfl, Or.inr ⟨issue, rfl,
                  Or.inr (Or.inr (Or.inr (Or.inr ⟨target, ht, hpe⟩)))⟩⟩⟩
            · by_cases hmv : fs.moveOk issue.sourcePath.data
                  (joinPath (dirnamePath issue.sourcePath.data) target.data) = true
              · have hR : rename_file fs st issueId newName now =
                    ⟨true, "Renamed to " ++ target,
                      saveStore (setIssue st issueId
                        { issue with status := IStatus.renamed, resolvedAt := some now }),
                      true⟩ := by
                  simp [rename_file, hl, ht, hp, hte, htf, hpe, hmv]
                rw [hR]
                constructor
                · intro _
                  refine ⟨issue, target, rfl, hp, ht, hte, htf, by simpa using hpe, hmv,
                    rfl, ?_⟩
                  rw [show (RenameOut.mk true ("Renamed to " ++ target)
                      (saveStore (setIssue st issueId
                        { issue with status := IStatus.renamed, resolvedAt := some now }))
                      true).store =
                    saveStore (setIssue st issueId
                      { issue with status := IStatus.renamed, resolvedAt := some now })
                    from rfl]
                  rw [lookupIssue_saveStore, lookupIssue_setIssue, hl]
                  rfl
                · intro hok
                  exact absurd hok (by simp)
              · have hR : rename_file fs st issueId newName now =
                    ⟨false, "Rename failed",
                      saveStore (setIssue st issueId
                        { issue with status := IStatus.failed }), true⟩ := by
                  simp [rename_file, hl, ht, hp, hte, htf, hpe, hmv]
                rw [hR]
                constructor
                · intro hok
                  exact absurd hok (by simp)
                · intro _
                  left
                  refine ⟨rfl, issue, target, rfl, hp, ht, hte, htf,
                    by simpa using hpe, by simpa using hmv, ?_⟩
                  rw [show (RenameOut.mk false "Rename failed"
                      (saveStore (setIssue st issueId
                        { issue with status := IStatus.failed })) true).store =
                    saveStore (setIssue st issueId { issue with status := IStatus.failed })
                    from rfl]
                  rw [lookupIssue_saveStore, lookupIssue_setIssue, hl]
                  rfl
    · have hR : rename_file fs st issueId newName now =
          ⟨false, "Issue already resolved", st, false⟩ := by
        simp [rename_file, hl, hp]
      rw [hR]
      exact ⟨fun hok => absurd hok (by simp),
        fun _ => Or.inr ⟨rfl, rfl, Or.inr ⟨issue, rfl, Or.inl hp⟩⟩⟩

/-- C4 witness: a concrete successful rename through the amended theorem -
the renamed issue with its resolution timestamp is stored and persisted. -/
theorem c4_witness :
    (rename_file exRenameFs exIssueStore "i1" none 7).saved = true ∧
    lookupIssue (rename_file exRenameFs exIssueStore "i1" none 7).store "i1" =
      some exIssueRenamed := by
  obtain ⟨hsucc, _⟩ := c4_amended exRenameFs exIssueStore "i1" none 7
  obtain ⟨i, t, h1, _, _, _, _, _, _, h8, h9⟩ := hsucc (by decide)
  have hi : i = exIssue := by
    have h2 : some i = some exIssue := by rw [← h1]; decide
    exact Option.some.inj h2
  subst hi
  exact ⟨h8, h9⟩

/-! ### C9 and C10: start protocol and job loading -/

lemma lookupJob_startedState (st : MgrState) (jobId : String) (j' : MJob) :
    lookupJob (startedState st jobId j') jobId =
      Option.map (fun _ => j') (lookupJob st jobId) := by
  simp only [lookupJob, startedState]
  exact lookup_assoc_update st.jobs jobId j'

/-- C9, confirmed: `start_job` fails exactly when the job is unknown,
already running, the mount probe is unhealthy, or the source-path probe is
unhealthy; failures leave the manager state untouched and spawn nothing;
success marks the job running with a stamped `last_run_at`, persists once
and spawns the run task. -/
theorem c9_start_job (health : String → Bool × String) (mountPoint : String)
    (st : MgrState) (jobId : String) (now : Nat) :
    ((start_job health mountPoint st jobId now).ok = false ↔
      (lookupJob st jobId = none ∨ st.runningJobs.contains jobId = true ∨
       (health mountPoint).1 = false ∨
       (∃ j, lookupJob st jobId = some j ∧ (health j.sourcePath).1 = false))) ∧
    ((start_job health mountPoint st jobId now).ok = false →
      (start_job health mountPoint st jobId now).state = st ∧
      (start_job health mountPoint st jobId now).spawned = false) ∧
    ((start_job health mountPoint st jobId now).ok = true →
      (start_job health mountPoint st jobId now).spawned = true ∧
      (start_job health mountPoint st jobId now).state.saveCount = st.saveCount + 1 ∧
      ∃ j, lookupJob st jobId = some j ∧
        lookupJob (start_job health mountPoint st jobId now).state jobId =
          some { j with status := JStatus.running, lastRunAt := some now }) := by
  rcases hl : lookupJob st jobId with _ | job
  · have hR : start_job health mountPoint st jobId now =
        ⟨false, "Job not found", st, false⟩ := by
      simp [start_job, hl]
    rw [hR]
    exact ⟨⟨fun _ => Or.inl rfl, fun _ => rfl⟩, fun _ => ⟨rfl, rfl⟩,
      fun hok => absurd hok (by simp)⟩
  · by_cases hrun : st.runningJobs.contains jobId = true
    · have hmem : jobId ∈ st.runningJobs := by simpa using hrun
      have hR : start_job health mountPoint st jobId now =
          ⟨false, "Job is already running", st, false⟩ := by
        simp [start_job, hl, hmem]
      rw [hR]
      exact ⟨⟨fun _ => Or.inr (Or.inl hrun), fun _ => rfl⟩, fun _ => ⟨rfl, rfl⟩,
        fun hok => absurd hok (by simp)⟩
    · have hmem : jobId ∉ st.runningJobs := by simpa using hrun
      by_cases hm : (health mountPoint).1 = false
      · have hR : start_job health mountPoint st jobId now =
            ⟨false, "Cannot start job: " ++ (health mountPoint).2, st, false⟩ := by
          simp [start_job, hl, hmem, hm]
        rw [hR]
        exact ⟨⟨fun _ => Or.inr (Or.inr (Or.inl hm)), fun _ => rfl⟩,
          fun _ => ⟨rfl, rfl⟩, fun hok => absurd hok (by simp)⟩
      · by_cases hs : (health job.sourcePath).1 = false
        · have hR : start_job health mountPoint st jobId now =
              ⟨false, "Source path not accessible: " ++ (health job.sourcePath).2,
                st, false⟩ := by
            simp [start_job, hl, hmem, hm, hs]
          rw [hR]
          exact ⟨⟨fun _ => Or.inr (Or.inr (Or.inr ⟨job, rfl, hs⟩)), fun _ => rfl⟩,
            fun _ => ⟨rfl, rfl⟩, fun hok => absurd hok (by simp)⟩
        · have hR : start_job health mountPoint st jobId now =
              ⟨true, "Job started",
                startedState st jobId
                  { job with status := JStatus.running, lastRunAt := some now },
                true⟩ := by
            simp [start_job, hl, hmem, hm, hs]
          rw [hR]
          refine ⟨⟨fun hok => absurd hok (by simp), ?_⟩,
            fun hok => absurd hok (by simp), ?_⟩
          · rintro (h | h | h | ⟨j, hj, hbad⟩)
            · exact absurd h (by simp)
            · exact absurd h hrun
            · exact absurd h hm
            · have : j = job := (Option.some.inj hj).symm
              subst this
              exact absurd hbad hs
          · intro _
            refine ⟨rfl, rfl, job, rfl, ?_⟩
            rw [show (StartOut.mk true "Job started"
                (startedState st jobId
                  { job with status := JStatus.running, lastRunAt := some now })
                true).state =
              startedState st jobId
                { job with status := JStatus.running, lastRunAt := some now } from rfl]
            rw [lookupJob_startedState, hl]
            rfl

/-- C9 witness: the theorem at a concrete healthy start that succeeds. -/
theorem c9_witness :
    (start_job exHealth "/mnt/ll" exMgrState "j1" 9).spawned = true ∧
    (start_job exHealth "/mnt/ll" exMgrState "j1" 9).state.saveCount = 1 ∧
    ∃ j, lookupJob exMgrState "j1" = some j ∧
      lookupJob (start_job exHealth "/mnt/ll" exMgrState "j1" 9).state "j1" =
        some { j with status := JStatus.running, lastRunAt := some 9 } :=
  (c9_start_job exHealth "/mnt/ll" exMgrState "j1" 9).2.2 (by decide)

lemma applyRecs_ok_append : ∀ (p : List MJob) (jobs : List (String × MJob))
    (rs : List RecParse),
    applyRecs jobs (p.map RecParse.okRec ++ rs) = applyRecs (p.foldl insertLoaded jobs) rs
  | [], _, _ => rfl
  | j :: pt, jobs, rs => by
    simp only [List.map_cons, List.cons_append, applyRecs, List.foldl_cons]
    exact applyRecs_ok_append pt (insertLoaded jobs j) rs

lemma applyRecs_all_ok (q : List MJob) (jobs : List (String × MJob)) :
    applyRecs jobs (q.map RecParse.okRec) = (q.foldl insertLoaded jobs, true) := by
  have h := applyRecs_ok_append q jobs []
  rw [List.append_nil] at h
  rw [h]
  rfl

/-- C10, confirmed: when the canonical file parses as JSON but one record
fails validation, the records before the failure stay loaded, no
`.corrupted` sibling is written (that happens only for JSON parse errors),
and the backup is processed on top, so the resulting job dict combines the
canonical file's valid prefix with the backup's records. -/
theorem c10_load_jobs (p : List MJob) (rest : List RecParse) (q : List MJob) :
    (load_jobs (FileState.goodJson (p.map RecParse.okRec ++ RecParse.badRec :: rest))
      (FileState.goodJson (q.map RecParse.okRec))).corruptedWritten = false ∧
    (load_jobs (FileState.goodJson (p.map RecParse.okRec ++ RecParse.badRec :: rest))
      (FileState.goodJson (q.map RecParse.okRec))).jobs =
      q.foldl insertLoaded (p.foldl insertLoaded []) := by
  have h1 : applyRecs [] (p.map RecParse.okRec ++ RecParse.badRec :: rest) =
      (p.foldl insertLoaded [], false) := by
    rw [applyRecs_ok_append]
    rfl
  have h2 : applyRecs (p.foldl insertLoaded []) (q.map RecParse.okRec) =
      (q.foldl insertLoaded (p.foldl insertLoaded []), true) :=
    applyRecs_all_ok q (p.foldl insertLoaded [])
  simp [load_jobs, loadOneFile, h1, h2]

end NasSync
